import Mathlib

/-!
FixedSet: a two-level perfect hash set of 32-bit integers

A shallow embedding of `FixedSet.cpp` and a verification of its specification.

Modelling conventions.

* `int64_t` and `int` values are integers (`Int`).  The arithmetic of
  `HashFunction::operator()` on key data is 64-bit: every product and sum is
  passed through `wrap64`, and `%` is the truncating remainder `Int.tmod`.
* A `std::vector` is a `List`; `std::optional<int>` is `Option Int`.  Vector
  sizes, indices below a size, the per-bucket counters and the cost (the sum of
  the squared counters, at most the square of the number of keys) are exact
  numbers: the conversions between `size_t`, `int` and `int64_t` on them are
  the identity for every vector of fewer than `2^31` entries.
* Undefined behaviour that the source can reach through a bad divisor or a bad
  index is a result: `Fault.divZero` for `x % 0`, `Fault.outOfRange` for an
  index outside its vector.
* The two `do ... while` loops are bounded by a number of rounds, `fuel`;
  a loop that has not exited after `fuel` rounds gives `Fault.fuel`.  To
  terminate is to return `Except.ok` for some `fuel`.
* `std::mt19937` together with `std::uniform_int_distribution<int>` is a
  `Generator`: the sequence of the values that successive calls
  `dist(*generator)` return, and the number of values already consumed.
-/

namespace FKS

/-- Faults of an execution: a loop that is out of rounds, a remainder by zero,
an index outside its vector. -/
inductive Fault where
  | fuel
  | divZero
  | outOfRange
deriving DecidableEq

/-- Reduction of an integer to the signed 64-bit range (the complement of two). -/
def wrap64 (z : Int) : Int := (z + 9223372036854775808) % 18446744073709551616 - 9223372036854775808

/-- Conversion of an `int64_t` to `uint64_t` (the usual arithmetic conversion of
a signed operand that meets a `size_t`). -/
def toU64 (z : Int) : Int := z % 18446744073709551616

/-- The operator `%` on two `int64_t`: truncating remainder, undefined for a zero divisor. -/
def rem64 (x m : Int) : Except Fault Int :=
  if m = 0 then Except.error Fault.divZero else Except.ok (Int.tmod x m)

/-- The operator `%` of an `int64_t` by a `size_t`: both operands are unsigned. -/
def remSize (x : Int) (size : Nat) : Except Fault Int :=
  if size = 0 then Except.error Fault.divZero else Except.ok (toU64 x % (size : Int))

/-- Access `v[index]` for writing: the vector with `f` applied at `index`. -/
def vecModify {α : Type} (v : List α) (index : Int) (f : α → α) : Except Fault (List α) :=
  if 0 ≤ index ∧ index < (v.length : Int) then Except.ok (List.modify f index.toNat v)
  else Except.error Fault.outOfRange

/-- Access `v[index]` for reading. -/
def vecGet {α : Type} (v : List α) (index : Int) : Except Fault α :=
  if index < 0 then Except.error Fault.outOfRange
  else match v.get? index.toNat with
    | some x => Except.ok x
    | none => Except.error Fault.outOfRange

/-- The call `v.resize(size)` on a vector of optionals: truncate, or pad with empty slots. -/
def vecResize (v : List (Option Int)) (size : Nat) : List (Option Int) :=
  v.take size ++ List.replicate (size - v.length) none

/-- The class `HashFunction`: `x ↦ ((arg_a * x) % modulus + arg_b) % modulus`. -/
structure HashFunction where
  arg_a : Int
  arg_b : Int
  modulus : Int
deriving DecidableEq

/-- The default constructor `HashFunction()`. -/
instance : Inhabited HashFunction := ⟨⟨0, 0, 1⟩⟩

/-- The constant `HashFunction::kPrime`. -/
def kPrime : Int := 2147483647

/-- The call operator `HashFunction::operator()`. -/
def HashFunction.apply (h : HashFunction) (number : Int) : Except Fault Int := do
  let result ← rem64 (wrap64 (h.arg_a * number)) h.modulus
  let result ← rem64 (wrap64 (result + h.arg_b)) h.modulus
  if result < 0 then
    pure (wrap64 (result + h.modulus))
  else
    pure result

/-- The random source: `draws i` is the value of the `i`-th call `dist(*generator)`,
`pos` the number of calls made so far. -/
structure Generator where
  draws : Nat → Int
  pos : Nat

/-- Every value drawn lies in the range `[0, kPrime - 1]` of the distribution
`std::uniform_int_distribution<int> dist(0, mod - 1)` for `mod = kPrime`. -/
def Generator.InRange (g : Generator) : Prop :=
  ∀ i, 0 ≤ g.draws i ∧ g.draws i ≤ 2147483646

/-- The function `HashFunction::GenerateRandom`: two draws, then the constructor. -/
def HashFunction.GenerateRandom (generator : Generator) (mod : Int) : HashFunction × Generator :=
  let arg_one := generator.draws generator.pos
  let arg_two := generator.draws (generator.pos + 1)
  (⟨arg_one, arg_two, mod⟩, { generator with pos := generator.pos + 2 })

/-- The class `InternalHashTable`. -/
structure InternalHashTable where
  hash_function_ : HashFunction := default
  info_ : List (Option Int) := []
deriving DecidableEq

/-- The default constructor `InternalHashTable()`. -/
instance : Inhabited InternalHashTable := ⟨{}⟩

/-- The class `FixedSet`. -/
structure FixedSet where
  additional_memory : Int
  hash_function_ : HashFunction := default
  hash_tables_ : List InternalHashTable := []
deriving DecidableEq

/-- The function `FixedSet::ComputeCollisions`. -/
def FixedSet.ComputeCollisions (elements : List Int) (hash_func : HashFunction)
    (modulus : Nat) : Except Fault (List Int) :=
  elements.foldlM (fun backet_sizes elem => do
    let hashed ← hash_func.apply elem
    let index ← rem64 hashed (modulus : Int)
    vecModify backet_sizes index (fun c => c + 1)) (List.replicate modulus (0 : Int))

/-- The function `FixedSet::BuildBackets`. -/
def FixedSet.BuildBackets (self : FixedSet) (elements : List Int) :
    Except Fault (List (List Int)) :=
  let backets_num := elements.length
  elements.foldlM (fun backets elem => do
    let hashed ← self.hash_function_.apply elem
    let index ← rem64 hashed (backets_num : Int)
    vecModify backets index (fun backet => backet ++ [elem])) (List.replicate backets_num [])

/-- The function `FixedSet::ComputeMemory`: it stores the sum in the field and returns it. -/
def FixedSet.ComputeMemory (self : FixedSet) (backet_sizes : List Int) : Int × FixedSet :=
  let total := backet_sizes.foldl (fun acc elem => acc + elem * elem) 0
  (total, { self with additional_memory := total })

/-- The function `FixedSet::FindHashFunction`; one unit of `fuel` per round of the loop. -/
def FixedSet.FindHashFunction (self : FixedSet) (elements : List Int) (generator : Generator) :
    Nat → Except Fault (HashFunction × FixedSet × Generator)
  | 0 => Except.error Fault.fuel
  | fuel + 1 => do
    let (hash_func, generator) := HashFunction.GenerateRandom generator kPrime
    let backet_sizes ← FixedSet.ComputeCollisions elements hash_func elements.length
    let (additional_memory, self) := self.ComputeMemory backet_sizes
    if additional_memory > 4 * (elements.length : Int) then
      FixedSet.FindHashFunction self elements generator fuel
    else
      pure (hash_func, self, generator)

/-- The function `InternalHashTable::Contains`. -/
def InternalHashTable.Contains (self : InternalHashTable) (value : Int) : Except Fault Bool :=
  if self.info_.isEmpty then
    pure false
  else do
    let hashed ← self.hash_function_.apply value
    let index ← remSize hashed self.info_.length
    let slot ← vecGet self.info_ index
    match slot with
    | some stored => pure (decide (stored = value))
    | none => pure false

/-- The function `InternalHashTable::HasCollisions`. -/
def InternalHashTable.HasCollisions (self : InternalHashTable) (elements : List Int) :
    Except Fault Bool := do
  let modulus := elements.length * elements.length
  let collisions ← FixedSet.ComputeCollisions elements self.hash_function_ modulus
  pure (collisions.any (fun elem => decide (elem > 1)))

/-- The function `InternalHashTable::BuildHashTable`. -/
def InternalHashTable.BuildHashTable (self : InternalHashTable) (elements : List Int) :
    Except Fault InternalHashTable := do
  let info ← elements.foldlM (fun info elem => do
    let hashed ← self.hash_function_.apply elem
    let index ← remSize hashed info.length
    vecModify info index (fun _ => some elem)) self.info_
  pure { self with info_ := info }

/-- The resampling loop of `InternalHashTable::Initialize`; one unit of `fuel` per round. -/
def InternalHashTable.resample (self : InternalHashTable) (elements : List Int)
    (generator : Generator) : Nat → Except Fault (InternalHashTable × Generator)
  | 0 => Except.error Fault.fuel
  | fuel + 1 => do
    let (hash_func, generator) := HashFunction.GenerateRandom generator kPrime
    let self := { self with hash_function_ := hash_func }
    if (← self.HasCollisions elements) then
      InternalHashTable.resample self elements generator fuel
    else
      pure (self, generator)

/-- The function `InternalHashTable::Initialize`. -/
def InternalHashTable.Initialize (self : InternalHashTable) (elements : List Int)
    (generator : Generator) (fuel : Nat) : Except Fault (InternalHashTable × Generator) := do
  let size := elements.length * elements.length
  let self := { self with info_ := vecResize self.info_ size }
  let (self, generator) ← InternalHashTable.resample self elements generator fuel
  let self ← self.BuildHashTable elements
  pure (self, generator)

/-- The `for` loop of `FixedSet::BuildHashTables`, from `index` for `remaining` more rounds. -/
def FixedSet.buildLoop (backets : List (List Int)) (fuel : Nat) (self : FixedSet)
    (generator : Generator) (index : Nat) : Nat → Except Fault (FixedSet × Generator)
  | 0 => pure (self, generator)
  | remaining + 1 => do
    let backet ← vecGet backets (index : Int)
    let (table, generator) ← InternalHashTable.Initialize {} backet generator fuel
    let self := { self with hash_tables_ := self.hash_tables_ ++ [table] }
    FixedSet.buildLoop backets fuel self generator (index + 1) remaining

/-- The function `FixedSet::BuildHashTables`. -/
def FixedSet.BuildHashTables (self : FixedSet) (elements : List Int) (generator : Generator)
    (fuel : Nat) : Except Fault (FixedSet × Generator) := do
  let backets ← self.BuildBackets elements
  FixedSet.buildLoop backets fuel self generator 0 elements.length

/-- The function `FixedSet::Initialize`; `seed` is the stream of `std::mt19937 generator(333)`. -/
def FixedSet.Initialize (self : FixedSet) (elements : List Int) (seed : Generator)
    (fuel : Nat) : Except Fault FixedSet := do
  let self := if !self.hash_tables_.isEmpty then { self with hash_tables_ := [] } else self
  let generator := seed
  let (hash_func, self, generator) ← self.FindHashFunction elements generator fuel
  let self := { self with hash_function_ := hash_func }
  let (self, _) ← self.BuildHashTables elements generator fuel
  pure self

/-- The function `FixedSet::Contains`. -/
def FixedSet.Contains (self : FixedSet) (value : Int) : Except Fault Bool :=
  if self.hash_tables_.isEmpty then
    pure false
  else do
    let hashed ← self.hash_function_.apply value
    let index ← remSize hashed self.hash_tables_.length
    let table ← vecGet self.hash_tables_ index
    table.Contains value

/-! Notions of the specification: hash values, slots, buckets, perfect tables. -/

/-- The value of `HashFunction::operator()` computed over the unbounded integers. -/
def HashFunction.applyUnbounded (h : HashFunction) (number : Int) : Int :=
  let result := Int.tmod (h.arg_a * number) h.modulus
  let result := Int.tmod (result + h.arg_b) h.modulus
  if result < 0 then result + h.modulus else result

/-- The value that `HashFunction::operator()` returns (`0` when it faults). -/
def HashFunction.value (h : HashFunction) (x : Int) : Int :=
  match h.apply x with
  | Except.ok v => v
  | Except.error _ => 0

/-- The index `hash(x) % m` of a key in a vector of `m` entries. -/
def HashFunction.slot (h : HashFunction) (m : Nat) (x : Int) : Nat :=
  (h.value x % (m : Int)).toNat

/-- A hash function whose modulus is a positive `int64_t`. -/
def HashFunction.Positive (h : HashFunction) : Prop :=
  0 < h.modulus ∧ h.modulus < 9223372036854775808

instance (h : HashFunction) : Decidable h.Positive := by
  unfold HashFunction.Positive
  infer_instance

/-- The index `hash(x) % m` as `FixedSet::ComputeCollisions` and `FixedSet::BuildBackets`
compute it. -/
def HashFunction.index (h : HashFunction) (m : Nat) (x : Int) : Except Fault Int := do
  let hashed ← h.apply x
  rem64 hashed (m : Int)

/-- The keys of `es` that a hash function sends to slot `i` of a table sized for `es`. -/
def HashFunction.keysAt (h : HashFunction) (es : List Int) (i : Nat) : List Int :=
  es.filter (fun e => decide (h.slot (es.length * es.length) e = i))

/-- An inner table that is a perfect hash table of the bucket `es`: `k * k` slots for `k`
keys, at most one key of the bucket per slot, and slot `i` holds the key sent to `i`. -/
structure InternalHashTable.PerfectFor (t : InternalHashTable) (es : List Int) : Prop where
  positive : t.hash_function_.Positive
  size : t.info_.length = es.length * es.length
  injective : ∀ i, (t.hash_function_.keysAt es i).length ≤ 1
  stored : ∀ i, i < es.length * es.length →
    t.info_.getD i none = (t.hash_function_.keysAt es i).head?

/-- An inner table that `InternalHashTable::BuildHashTable` has filled with the bucket `es`
over the slots `old`: `k * k` slots for `k` keys, at most one key of the bucket per slot, a
slot that a key is sent to holds that key, and every other slot holds what `old` held. -/
structure InternalHashTable.BuiltOn (t : InternalHashTable) (old : List (Option Int))
    (es : List Int) : Prop where
  positive : t.hash_function_.Positive
  size : t.info_.length = es.length * es.length
  injective : ∀ i, (t.hash_function_.keysAt es i).length ≤ 1
  stored : ∀ i, i < es.length * es.length →
    t.info_.getD i none = ((t.hash_function_.keysAt es i).head?).or (old.getD i none)

/-- The keys of `es` that an outer hash function sends to bucket `i` of `es.length` buckets,
in the order of `es`. -/
def HashFunction.bucket (h : HashFunction) (es : List Int) (i : Nat) : List Int :=
  es.filter (fun e => decide (h.slot es.length e = i))

/-- The `j`-th candidate that `HashFunction::GenerateRandom` produces from a generator:
its draws number `2 * j` and `2 * j + 1`, counted from the position of the generator. -/
def Generator.candidate (g : Generator) (j : Nat) : HashFunction :=
  ⟨g.draws (g.pos + 2 * j), g.draws (g.pos + 2 * j + 1), kPrime⟩

/-- The generator after `j` candidates have been drawn from it. -/
def Generator.advance (g : Generator) (j : Nat) : Generator :=
  { g with pos := g.pos + 2 * j }

/-- The memory cost of an outer candidate, as the loop of `FixedSet::FindHashFunction`
computes it: the sum of the squared counts of `FixedSet::ComputeCollisions` (`0` when the
count faults). -/
def FixedSet.cost (es : List Int) (h : HashFunction) : Int :=
  match FixedSet.ComputeCollisions es h es.length with
  | Except.ok counts => (FixedSet.ComputeMemory ⟨0, default, []⟩ counts).1
  | Except.error _ => 0

/-- The largest slot count of a bucket under an inner candidate is at most one: every
count of `FixedSet::ComputeCollisions` modulo `k * k` is `≤ 1` (false when the count
faults). -/
def HashFunction.collisionFree (h : HashFunction) (es : List Int) : Bool :=
  match FixedSet.ComputeCollisions es h (es.length * es.length) with
  | Except.ok counts => counts.all (fun c => decide (c ≤ 1))
  | Except.error _ => false

/-- An execution without undefined behaviour: it returns a value, or it is out of fuel; it
meets no remainder by zero and no index outside its vector. -/
def Safe {α : Type} (r : Except Fault α) : Prop :=
  r ≠ Except.error Fault.divZero ∧ r ≠ Except.error Fault.outOfRange

/-! Concrete inputs. -/

/-- A key list for the concrete checks: the scenario `S = [1, 2, 3, 4, 5]`. -/
def demoKeys : List Int := [1, 2, 3, 4, 5]

/-- A random stream for the concrete checks.  On `demoKeys` its first outer candidate
`(0, 0)` is rejected (cost 25), the second `(1073741824, 0)` is accepted (cost 7); on the
bucket `[2, 5]` the inner candidate `(0, 3)` is rejected and `(1, 0)` is accepted. -/
def demoSeed : Generator :=
  ⟨fun i => [0, 0, 1073741824, 0, 7, 1, 0, 3, 1, 0, 2, 2, 3, 3, 4, 4].getD i 0, 0⟩

/-- The set that `FixedSet::Initialize` builds from `demoKeys` on `demoSeed`. -/
def demoSet : FixedSet :=
  { additional_memory := 7
    hash_function_ := ⟨1073741824, 0, 2147483647⟩
    hash_tables_ := [⟨⟨7, 1, 2147483647⟩, [some 3]⟩,
      ⟨⟨1, 0, 2147483647⟩, [none, some 5, some 2, none]⟩,
      ⟨⟨2, 2, 2147483647⟩, [some 4]⟩,
      ⟨⟨3, 3, 2147483647⟩, []⟩,
      ⟨⟨4, 4, 2147483647⟩, [some 1]⟩] }

/-- A set that was built before, from the key list `[42]`. -/
def usedSet : FixedSet :=
  { additional_memory := 1
    hash_function_ := ⟨0, 0, 2147483647⟩
    hash_tables_ := [⟨⟨1073741824, 0, 2147483647⟩, [some 42]⟩] }


/-! Arithmetic of `HashFunction::operator()`. -/

theorem wrap64_of_range {z : Int} (h1 : -9223372036854775808 ≤ z) (h2 : z < 9223372036854775808) :
    wrap64 z = z := by
  unfold wrap64; omega

theorem wrap64_range (z : Int) : -9223372036854775808 ≤ wrap64 z ∧ wrap64 z < 9223372036854775808 := by
  unfold wrap64; omega

theorem tmod_gt_neg (x : Int) {m : Int} (hm : 0 < m) : -m < Int.tmod x m := by
  rcases Int.le_total 0 x with hx | hx
  · have := Int.tmod_nonneg m hx
    omega
  · have h1 : Int.tmod (-x) m < m := Int.tmod_lt_of_pos _ hm
    have h2 : Int.tmod (-x) m = -(Int.tmod x m) := by
      rw [Int.tmod_def, Int.tmod_def, Int.neg_tdiv]; ring
    omega

theorem tmod_emod (x m : Int) : (Int.tmod x m) % m = x % m := by
  rw [Int.tmod_def, Int.sub_eq_add_neg, ← Int.mul_neg, Int.add_mul_emod_self_left]

theorem applyUnbounded_eq_emod (a b m x : Int) (hm : 0 < m) :
    HashFunction.applyUnbounded ⟨a, b, m⟩ x = (a * x + b) % m := by
  simp only [HashFunction.applyUnbounded]
  have hlt := Int.tmod_lt_of_pos (Int.tmod (a * x) m + b) hm
  have hgt := tmod_gt_neg (Int.tmod (a * x) m + b) hm
  have hcong : (Int.tmod (Int.tmod (a * x) m + b) m) % m = (a * x + b) % m := by
    rw [tmod_emod, Int.add_emod, tmod_emod, ← Int.add_emod]
  split
  · rw [← hcong, ← Int.add_emod_self, Int.emod_eq_of_lt (by omega) (by omega)]
  · rw [← hcong, Int.emod_eq_of_lt (by omega) (by omega)]


theorem apply_ok (h : HashFunction) (x : Int) (hm : 0 < h.modulus)
    (hm64 : h.modulus < 9223372036854775808) :
    ∃ v, h.apply x = Except.ok v ∧ 0 ≤ v ∧ v < h.modulus := by
  have hne : h.modulus ≠ 0 := by omega
  simp only [HashFunction.apply, rem64, hne, if_false, bind, Except.bind, pure, Except.pure]
  have hlt := Int.tmod_lt_of_pos (wrap64 (Int.tmod (wrap64 (h.arg_a * x)) h.modulus + h.arg_b)) hm
  have hgt := tmod_gt_neg (wrap64 (Int.tmod (wrap64 (h.arg_a * x)) h.modulus + h.arg_b)) hm
  split
  · refine ⟨_, rfl, ?_⟩
    rw [wrap64_of_range (by omega) (by omega)]
    omega
  · exact ⟨_, rfl, by omega, hlt⟩

theorem apply_of_range (a b m x : Int) (hm : 0 < m) (hm64 : m < 9223372036854775808)
    (h1 : -9223372036854775808 ≤ a * x ∧ a * x < 9223372036854775808)
    (h2 : -9223372036854775808 ≤ Int.tmod (a * x) m + b ∧
      Int.tmod (a * x) m + b < 9223372036854775808) :
    HashFunction.apply ⟨a, b, m⟩ x = Except.ok (HashFunction.applyUnbounded ⟨a, b, m⟩ x) := by
  have hne : m ≠ 0 := by omega
  simp only [HashFunction.apply, HashFunction.applyUnbounded, rem64, hne, if_false, bind,
    Except.bind, pure, Except.pure]
  rw [wrap64_of_range h1.1 h1.2, wrap64_of_range h2.1 h2.2]
  have hlt := Int.tmod_lt_of_pos (Int.tmod (a * x) m + b) hm
  have hgt := tmod_gt_neg (Int.tmod (a * x) m + b) hm
  split
  · rw [wrap64_of_range (by omega) (by omega)]
  · rfl


theorem mul_key_range (a x : Int) (ha0 : 0 ≤ a) (ha : a ≤ 2147483646)
    (hx0 : -2147483648 ≤ x) (hx : x ≤ 2147483647) :
    -4611686014132420608 ≤ a * x ∧ a * x ≤ 4611686011984936962 := by
  constructor
  · nlinarith
  · nlinarith


/-- The hash value under the modulus `kPrime`, for parameters of the generator and a 32-bit
key: no step leaves the 64-bit range. -/
theorem apply_kPrime (a b x : Int) (ha0 : 0 ≤ a) (ha : a ≤ 2147483646)
    (hb0 : 0 ≤ b) (hb : b ≤ 2147483646) (hx0 : -2147483648 ≤ x) (hx : x ≤ 2147483647) :
    HashFunction.apply ⟨a, b, kPrime⟩ x = Except.ok ((a * x + b) % kPrime) := by
  have hp : (0 : Int) < kPrime := by decide
  have hpv : kPrime = 2147483647 := rfl
  have hmul := mul_key_range a x ha0 ha hx0 hx
  have h1lt := Int.tmod_lt_of_pos (a * x) hp
  have h1gt := tmod_gt_neg (a * x) hp
  rw [apply_of_range a b kPrime x hp (by omega) (by omega) (by omega),
    applyUnbounded_eq_emod a b kPrime x hp]

/-! Hash values, vector accesses and the loops that fill a vector. -/

theorem apply_eq_value (h : HashFunction) (x : Int) (hp : h.Positive) :
    h.apply x = Except.ok (h.value x) := by
  obtain ⟨v, hv, -, -⟩ := apply_ok h x hp.1 hp.2
  simp [HashFunction.value, hv]

theorem value_range (h : HashFunction) (x : Int) (hp : h.Positive) :
    0 ≤ h.value x ∧ h.value x < h.modulus := by
  obtain ⟨v, hv, h0, h1⟩ := apply_ok h x hp.1 hp.2
  simp [HashFunction.value, hv, h0, h1]

theorem slot_lt (h : HashFunction) {m : Nat} (x : Int) (hm : 0 < m) : h.slot m x < m := by
  unfold HashFunction.slot
  have h1 := Int.emod_lt_of_pos (h.value x) (show (0 : Int) < (m : Int) by omega)
  have h2 := Int.emod_nonneg (h.value x) (show (m : Int) ≠ 0 by omega)
  omega

theorem rem64_value (h : HashFunction) (x : Int) (hp : h.Positive) {m : Nat} (hm : 0 < m) :
    rem64 (h.value x) (m : Int) = Except.ok ((h.slot m x : Nat) : Int) := by
  have hv := (value_range h x hp).1
  have hne : (m : Int) ≠ 0 := by omega
  have h2 := Int.emod_nonneg (h.value x) hne
  simp only [rem64, hne, if_false, HashFunction.slot]
  rw [Int.tmod_eq_emod hv (by omega), Int.toNat_of_nonneg h2]

theorem remSize_value (h : HashFunction) (x : Int) (hp : h.Positive) {m : Nat} (hm : 0 < m) :
    remSize (h.value x) m = Except.ok ((h.slot m x : Nat) : Int) := by
  have hv := value_range h x hp
  have hne : (m : Int) ≠ 0 := by omega
  have hm0 : m ≠ 0 := by omega
  have h2 := Int.emod_nonneg (h.value x) hne
  have hu : toU64 (h.value x) = h.value x := by
    unfold toU64
    have := hp.2
    omega
  simp only [remSize, hm0, if_false, HashFunction.slot, hu]
  rw [Int.toNat_of_nonneg h2]

theorem vecModify_nat {α : Type} (v : List α) (i : Nat) (f : α → α) (hi : i < v.length) :
    vecModify v (i : Int) f = Except.ok (List.modify f i v) := by
  have : (0 : Int) ≤ (i : Int) ∧ (i : Int) < (v.length : Int) := by omega
  simp [vecModify, this]

theorem vecGet_nat {α : Type} (v : List α) (i : Nat) (x : α) (hx : v.get? i = some x) :
    vecGet v (i : Int) = Except.ok x := by
  have : ¬ ((i : Int) < 0) := by omega
  simp only [vecGet, this, if_false, Int.toNat_ofNat, hx]

/-- The pure content of the three vector-filling loops: apply `f e` at slot `pos e`. -/
theorem foldlM_modify {α : Type} (pos : Int → Nat) (f : Int → α → α)
    (body : List α → Int → Except Fault (List α)) (m : Nat)
    (hbody : ∀ acc e, acc.length = m → body acc e = Except.ok (List.modify (f e) (pos e) acc)) :
    ∀ (es : List Int) (acc : List α), acc.length = m →
      es.foldlM body acc
        = Except.ok (es.foldl (fun acc e => List.modify (f e) (pos e) acc) acc) := by
  intro es
  induction es with
  | nil => intro acc _; rfl
  | cons e es ih =>
    intro acc hacc
    simp only [List.foldlM, List.foldl, hbody acc e hacc, bind, Except.bind]
    exact ih _ (by simp [hacc])

theorem length_foldl_modify {α : Type} (pos : Int → Nat) (f : Int → α → α) :
    ∀ (es : List Int) (acc : List α),
      (es.foldl (fun acc e => List.modify (f e) (pos e) acc) acc).length = acc.length := by
  intro es
  induction es with
  | nil => intro acc; rfl
  | cons e es ih => intro acc; simp only [List.foldl, ih, List.length_modify]

theorem getD_modify {α : Type} (f : α → α) (n i : Nat) (l : List α) (d : α) (hi : i < l.length) :
    (List.modify f n l).getD i d = if n = i then f (l.getD i d) else l.getD i d := by
  simp only [List.getD_eq_getElem?_getD, List.getElem?_modify, List.getElem?_eq_getElem hi]
  split <;> simp

theorem getD_foldl_modify {α : Type} (pos : Int → Nat) (f : Int → α → α) (d : α) (i : Nat) :
    ∀ (es : List Int) (acc : List α), i < acc.length →
      (es.foldl (fun acc e => List.modify (f e) (pos e) acc) acc).getD i d
        = (es.filter (fun e => decide (pos e = i))).foldl (fun a e => f e a) (acc.getD i d) := by
  intro es
  induction es with
  | nil => intro acc _; rfl
  | cons e es ih =>
    intro acc hacc
    simp only [List.foldl]
    rw [ih _ (by simpa using hacc), getD_modify _ _ _ _ _ hacc]
    by_cases he : pos e = i
    · simp [he, List.filter]
    · simp [he, List.filter]


/-! The counts of `FixedSet::ComputeCollisions`. -/

theorem index_eq_slot (h : HashFunction) (x : Int) (hp : h.Positive) {m : Nat} (hm : 0 < m) :
    h.index m x = Except.ok ((h.slot m x : Nat) : Int) := by
  simp only [HashFunction.index, apply_eq_value h x hp, bind, Except.bind]
  exact rem64_value h x hp hm

theorem foldl_succ_eq (l : List Int) (c : Int) :
    l.foldl (fun a _ => a + 1) c = c + (l.length : Int) := by
  induction l generalizing c with
  | nil => simp
  | cons e l ih => simp only [List.foldl, ih, List.length_cons]; push_cast; ring

theorem sum_modify_succ : ∀ (l : List Int) (n : Nat), n < l.length →
    (List.modify (fun c => c + 1) n l).sum = l.sum + 1 := by
  intro l
  induction l with
  | nil => intro n hn; simp at hn
  | cons a l ih =>
    intro n hn
    cases n with
    | zero => simp [List.modify, List.modifyHead]; ring
    | succ n =>
      have := ih n (by simpa using hn)
      simp only [List.modify_succ_cons, List.sum_cons, this]; ring

theorem sum_foldl_modify_succ (pos : Int → Nat) :
    ∀ (es : List Int) (acc : List Int), (∀ e ∈ es, pos e < acc.length) →
      (es.foldl (fun acc e => List.modify (fun c => c + 1) (pos e) acc) acc).sum
        = acc.sum + (es.length : Int) := by
  intro es
  induction es with
  | nil => intro acc _; simp
  | cons e es ih =>
    intro acc hpos
    simp only [List.foldl]
    rw [ih _ (by intro x hx; simpa using hpos x (List.mem_cons_of_mem _ hx)),
      sum_modify_succ _ _ (hpos e (List.mem_cons_self _ _))]
    simp only [List.length_cons]; push_cast; ring

theorem computeCollisions_body (h : HashFunction) (hp : h.Positive) {m : Nat} (hm : 0 < m)
    (acc : List Int) (e : Int) (hacc : acc.length = m) :
    (do
      let hashed ← h.apply e
      let index ← rem64 hashed (m : Int)
      vecModify acc index (fun c => c + 1))
      = Except.ok (List.modify (fun c => c + 1) (h.slot m e) acc) := by
  simp only [apply_eq_value h e hp, rem64_value h e hp hm, bind, Except.bind]
  exact vecModify_nat _ _ _ (by rw [hacc]; exact slot_lt h e hm)

theorem computeCollisions_eq_foldl (es : List Int) (h : HashFunction) (hp : h.Positive)
    {m : Nat} (hm : 0 < m) :
    FixedSet.ComputeCollisions es h m = Except.ok
      (es.foldl (fun acc e => List.modify (fun c => c + 1) (h.slot m e) acc)
        (List.replicate m (0 : Int))) :=
  foldlM_modify (h.slot m) (fun _ c => c + 1) _ m
    (fun acc e hacc => computeCollisions_body h hp hm acc e hacc) es _ (by simp)

/-- The counts of `FixedSet::ComputeCollisions` for a positive number of buckets: their
number, their values and their sum. -/
theorem computeCollisions_full (elements : List Int) (h : HashFunction) (m : Nat)
    (hp : h.Positive) (hm : 0 < m) :
    ∃ counts, FixedSet.ComputeCollisions elements h m = Except.ok counts ∧
      counts.length = m ∧
      (∀ i, i < m →
        counts.getD i 0 = ((elements.countP (fun e => decide (h.slot m e = i)) : Nat) : Int)) ∧
      counts.sum = (elements.length : Int) := by
  refine ⟨_, computeCollisions_eq_foldl elements h hp hm, ?_, ?_, ?_⟩
  · rw [length_foldl_modify]; simp
  · intro i hi
    rw [getD_foldl_modify (h.slot m) (fun _ c => c + 1) 0 i elements _ (by simpa using hi),
      foldl_succ_eq, List.countP_eq_length_filter]
    simp [List.getD_eq_getElem?_getD, List.getElem?_replicate, hi]
  · rw [sum_foldl_modify_succ (h.slot m) elements _
      (by intro e _; simpa using slot_lt h e hm)]
    simp


/-! The buckets of `FixedSet::BuildBackets` and the verdict of `HasCollisions`. -/

theorem foldl_snoc_eq (l : List Int) (b : List Int) :
    l.foldl (fun a e => a ++ [e]) b = b ++ l := by
  induction l generalizing b with
  | nil => simp
  | cons e l ih => simp only [List.foldl, ih, List.append_assoc, List.singleton_append]

theorem foldl_store_eq (l : List Int) (s : Option Int) :
    l.foldl (fun _ e => some e) s = (l.getLast?).or s := by
  induction l generalizing s with
  | nil => simp
  | cons e l ih =>
    simp only [List.foldl, ih]
    cases l with
    | nil => simp
    | cons e2 l =>
      rw [List.getLast?_cons_cons, List.getLast?_eq_getLast _ (List.cons_ne_nil e2 l)]
      rfl

theorem buildBackets_body (h : HashFunction) (hp : h.Positive) {m : Nat} (hm : 0 < m)
    (acc : List (List Int)) (e : Int) (hacc : acc.length = m) :
    (do
      let hashed ← h.apply e
      let index ← rem64 hashed (m : Int)
      vecModify acc index (fun backet => backet ++ [e]))
      = Except.ok (List.modify (fun backet => backet ++ [e]) (h.slot m e) acc) := by
  simp only [apply_eq_value h e hp, rem64_value h e hp hm, bind, Except.bind]
  exact vecModify_nat _ _ _ (by rw [hacc]; exact slot_lt h e hm)

/-- The buckets that `FixedSet::BuildBackets` returns. -/
theorem buildBackets_spec (self : FixedSet) (es : List Int) (hp : self.hash_function_.Positive) :
    ∃ backets, self.BuildBackets es = Except.ok backets ∧ backets.length = es.length ∧
      ∀ i, i < es.length → backets.getD i []
        = es.filter (fun e => decide (self.hash_function_.slot es.length e = i)) := by
  rcases Nat.eq_zero_or_pos es.length with h0 | hpos
  · have hnil : es = [] := List.length_eq_zero.mp h0
    subst hnil
    exact ⟨[], rfl, rfl, by intro i hi; simp at hi⟩
  · refine ⟨_, foldlM_modify (self.hash_function_.slot es.length) (fun e backet => backet ++ [e])
      _ es.length (fun acc e hacc => buildBackets_body _ hp hpos acc e hacc) es _ (by simp),
      ?_, ?_⟩
    · rw [length_foldl_modify]; simp
    · intro i hi
      rw [getD_foldl_modify (self.hash_function_.slot es.length) (fun e backet => backet ++ [e])
        [] i es _ (by simpa using hi), foldl_snoc_eq]
      simp [List.getD_eq_getElem?_getD, List.getElem?_replicate, hi]

/-- The counts that `FixedSet::ComputeCollisions` returns, for a key list that is empty or a
positive number of buckets. -/
theorem computeCollisions_spec (es : List Int) (h : HashFunction) (m : Nat)
    (hp : h.Positive) (hm : 0 < m ∨ es = []) :
    ∃ counts, FixedSet.ComputeCollisions es h m = Except.ok counts ∧ counts.length = m ∧
      ∀ i, i < m →
        counts.getD i 0 = (((es.filter (fun e => decide (h.slot m e = i))).length : Nat) : Int) := by
  rcases hm with hm | hnil
  · obtain ⟨counts, h1, h2, h4, -⟩ := computeCollisions_full es h m hp hm
    refine ⟨counts, h1, h2, ?_⟩
    intro i hi
    rw [h4 i hi, List.countP_eq_length_filter]
  · subst hnil
    refine ⟨List.replicate m 0, rfl, by simp, ?_⟩
    intro i hi
    simp [List.getD_eq_getElem?_getD, List.getElem?_replicate, hi]

theorem any_gt_one_iff (counts : List Int) :
    counts.any (fun elem => decide (elem > 1)) = true ↔
      ∃ i, i < counts.length ∧ counts.getD i 0 > 1 := by
  rw [List.any_eq_true]
  constructor
  · rintro ⟨x, hx, hx1⟩
    obtain ⟨i, hi, rfl⟩ := List.mem_iff_getElem.mp hx
    refine ⟨i, hi, ?_⟩
    simpa [List.getD_eq_getElem?_getD, List.getElem?_eq_getElem hi] using hx1
  · rintro ⟨i, hi, h1⟩
    refine ⟨counts[i], List.getElem_mem _, ?_⟩
    simpa [List.getD_eq_getElem?_getD, List.getElem?_eq_getElem hi] using h1

/-- The verdict of `InternalHashTable::HasCollisions`: some slot receives two positions. -/
theorem hasCollisions_spec (t : InternalHashTable) (es : List Int)
    (hp : t.hash_function_.Positive) :
    ∃ verdict, t.HasCollisions es = Except.ok verdict ∧
      (verdict = true ↔ ∃ i, i < es.length * es.length ∧
        1 < (t.hash_function_.keysAt es i).length) := by
  have hm : 0 < es.length * es.length ∨ es = [] := by
    rcases Nat.eq_zero_or_pos es.length with h0 | hpos
    · exact Or.inr (List.length_eq_zero.mp h0)
    · exact Or.inl (Nat.mul_pos hpos hpos)
  obtain ⟨counts, h1, h2, h3⟩ := computeCollisions_spec es t.hash_function_ _ hp hm
  refine ⟨counts.any (fun elem => decide (elem > 1)), ?_, ?_⟩
  · simp only [InternalHashTable.HasCollisions, h1, bind, Except.bind, pure, Except.pure]
  · rw [any_gt_one_iff, h2]
    unfold HashFunction.keysAt
    constructor
    · rintro ⟨i, hi, hc⟩
      rw [h3 i hi] at hc
      exact ⟨i, hi, by omega⟩
    · rintro ⟨i, hi, hc⟩
      refine ⟨i, hi, ?_⟩
      rw [h3 i hi]
      omega


/-! The inner table: resampling and filling. -/

theorem kPrime_positive (a b : Int) : (⟨a, b, kPrime⟩ : HashFunction).Positive :=
  ⟨by show (0 : Int) < kPrime; decide, by show kPrime < 9223372036854775808; decide⟩

/-- The table that the resampling loop of `InternalHashTable::Initialize` leaves. -/
theorem resample_spec (es : List Int) : ∀ (fuel : Nat) (self : InternalHashTable)
    (g : Generator) (t : InternalHashTable) (g2 : Generator),
    InternalHashTable.resample self es g fuel = Except.ok (t, g2) →
      t.info_ = self.info_ ∧ t.hash_function_.modulus = kPrime ∧
      t.HasCollisions es = Except.ok false := by
  intro fuel
  induction fuel with
  | zero => intro self g t g2 h; simp [InternalHashTable.resample] at h
  | succ fuel ih =>
    intro self g t g2 h
    simp only [InternalHashTable.resample, HashFunction.GenerateRandom, bind, Except.bind] at h
    split at h
    · simp at h
    · rename_i verdict hv
      cases verdict with
      | true =>
        simp only [if_true] at h
        exact ih { self with hash_function_ := ⟨g.draws g.pos, g.draws (g.pos + 1), kPrime⟩ }
          _ t g2 h
      | false =>
        simp only [Bool.false_eq_true, if_false, pure, Except.pure] at h
        injection h with h
        injection h with h1 h2
        subst h1
        exact ⟨rfl, rfl, hv⟩

theorem buildHashTable_body (h : HashFunction) (hp : h.Positive) {m : Nat} (hm : 0 < m)
    (acc : List (Option Int)) (e : Int) (hacc : acc.length = m) :
    (do
      let hashed ← h.apply e
      let index ← remSize hashed acc.length
      vecModify acc index (fun _ => some e))
      = Except.ok (List.modify (fun _ => some e) (h.slot m e) acc) := by
  simp only [apply_eq_value h e hp, hacc, remSize_value h e hp hm, bind, Except.bind]
  exact vecModify_nat _ _ _ (by rw [hacc]; exact slot_lt h e hm)

/-- The slots that `InternalHashTable::BuildHashTable` leaves: slot `i` holds the last key
of the bucket sent to `i`, and keeps its content when no key is sent to it. -/
theorem buildHashTable_spec (t : InternalHashTable) (es : List Int)
    (hp : t.hash_function_.Positive) (hsize : t.info_.length = es.length * es.length) :
    ∃ t2, t.BuildHashTable es = Except.ok t2 ∧ t2.hash_function_ = t.hash_function_ ∧
      t2.info_.length = es.length * es.length ∧
      ∀ i, i < es.length * es.length →
        t2.info_.getD i none = ((t.hash_function_.keysAt es i).getLast?).or (t.info_.getD i none) := by
  rcases Nat.eq_zero_or_pos es.length with h0 | hpos
  · have hnil : es = [] := List.length_eq_zero.mp h0
    subst hnil
    exact ⟨t, rfl, rfl, hsize, by intro i hi; simp at hi⟩
  · have hm : 0 < es.length * es.length := Nat.mul_pos hpos hpos
    have hfold := foldlM_modify (t.hash_function_.slot (es.length * es.length))
      (fun e _ => some e) _ (es.length * es.length)
      (fun acc e hacc => buildHashTable_body _ hp hm acc e hacc) es t.info_ hsize
    refine ⟨{ t with info_ := es.foldl (fun acc e => List.modify (fun _ => some e)
      (t.hash_function_.slot (es.length * es.length) e) acc) t.info_ }, ?_, rfl, ?_, ?_⟩
    · rw [InternalHashTable.BuildHashTable, hfold]
      rfl
    · simp only [length_foldl_modify, hsize]
    · intro i hi
      simp only
      rw [getD_foldl_modify (t.hash_function_.slot (es.length * es.length))
        (fun e _ => some e) none i es _ (by rw [hsize]; exact hi), foldl_store_eq]
      rfl

theorem getLast?_eq_head?_of_length_le_one (l : List Int) (h : l.length ≤ 1) :
    l.getLast? = l.head? := by
  match l, h with
  | [], _ => rfl
  | [_], _ => rfl
  | _ :: _ :: _, h => simp at h

theorem getD_vecResize_nil (size i : Nat) : (vecResize [] size).getD i none = none := by
  by_cases h : i < size <;> simp [vecResize, List.getD_eq_getElem?_getD, List.getElem?_replicate, h]

/-- The table that `InternalHashTable::Initialize` builds from a default-constructed table
is a perfect hash table of its bucket. -/
theorem init_perfect (es : List Int) (g : Generator) (fuel : Nat)
    (t : InternalHashTable) (g2 : Generator)
    (h : InternalHashTable.Initialize {} es g fuel = Except.ok (t, g2)) : t.PerfectFor es := by
  simp only [InternalHashTable.Initialize, bind, Except.bind] at h
  split at h
  · simp at h
  · rename_i r hr
    obtain ⟨t1, g1⟩ := r
    obtain ⟨hinfo, hmod, hcol⟩ := resample_spec es fuel _ g t1 g1 hr
    have hp : t1.hash_function_.Positive := by
      have := kPrime_positive t1.hash_function_.arg_a t1.hash_function_.arg_b
      rw [← hmod] at this
      exact this
    have hsize : t1.info_.length = es.length * es.length := by
      rw [hinfo]; simp [vecResize]
    obtain ⟨t2, hb, hh2, hlen2, hslots⟩ := buildHashTable_spec t1 es hp hsize
    simp only [hb, pure, Except.pure] at h
    injection h with h
    injection h with h1 h2
    subst h1
    obtain ⟨verdict, hv, hiff⟩ := hasCollisions_spec t1 es hp
    rw [hcol] at hv
    injection hv with hv
    have hinj : ∀ i, (t1.hash_function_.keysAt es i).length ≤ 1 := by
      intro i
      by_contra hcon
      have hgt : 1 < (t1.hash_function_.keysAt es i).length := by omega
      have hlt : i < es.length * es.length := by
        have hne : 0 < (t1.hash_function_.keysAt es i).length := by omega
        obtain ⟨e, he⟩ := List.exists_mem_of_length_pos hne
        have hmem := List.mem_filter.mp he
        have hpos : 0 < es.length := List.length_pos_of_mem hmem.1
        have := slot_lt t1.hash_function_ e (Nat.mul_pos hpos hpos)
        have heq : t1.hash_function_.slot (es.length * es.length) e = i := by simpa using hmem.2
        omega
      have : verdict = true := hiff.mpr ⟨i, hlt, hgt⟩
      rw [← hv] at this
      exact Bool.noConfusion this
    refine ⟨by rw [hh2]; exact hp, hlen2, by rw [hh2]; exact hinj, ?_⟩
    intro i hi
    rw [hslots i hi, hh2, hinfo, getD_vecResize_nil, getLast?_eq_head?_of_length_le_one _ (hinj i)]
    cases (t1.hash_function_.keysAt es i).head? <;> rfl


/-! Consequences of a perfect inner table. -/

theorem countP_isSome_eq_sum : ∀ (l : List (Option Int)) (c : List Int),
    l.length = c.length →
    (∀ i, i < l.length → c.getD i 0 = if (l.getD i none).isSome then 1 else 0) →
    ((l.countP Option.isSome : Nat) : Int) = c.sum := by
  intro l
  induction l with
  | nil =>
    intro c hlen _
    have : c = [] := List.length_eq_zero.mp hlen.symm
    subst this
    rfl
  | cons a l ih =>
    intro c hlen hget
    cases c with
    | nil => simp at hlen
    | cons b c =>
      have h0 := hget 0 (by simp)
      have htail := ih c (by simpa using hlen) (by
        intro i hi
        have := hget (i + 1) (by simpa using hi)
        simpa using this)
      simp only [List.getD_cons_zero] at h0
      rw [List.sum_cons, ← htail, h0, List.countP_cons]
      cases a with
      | none => simp
      | some v => simp; ring

theorem mem_keysAt (h : HashFunction) (es : List Int) (i : Nat) (x : Int) :
    x ∈ h.keysAt es i ↔ x ∈ es ∧ h.slot (es.length * es.length) x = i := by
  simp [HashFunction.keysAt, List.mem_filter]

theorem keysAt_eq_singleton (h : HashFunction) (es : List Int) (x : Int) (hx : x ∈ es)
    (hinj : (h.keysAt es (h.slot (es.length * es.length) x)).length ≤ 1) :
    h.keysAt es (h.slot (es.length * es.length) x) = [x] := by
  have hmem : x ∈ h.keysAt es (h.slot (es.length * es.length) x) :=
    (mem_keysAt h es _ x).mpr ⟨hx, rfl⟩
  match hl : h.keysAt es (h.slot (es.length * es.length) x), hinj with
  | [], _ => rw [hl] at hmem; simp at hmem
  | [y], _ => rw [hl] at hmem; simp at hmem; rw [hmem]
  | _ :: _ :: _, hinj => simp at hinj

theorem getD_eq_get? {α : Type} (l : List α) (i : Nat) (d : α) (hi : i < l.length) :
    l.get? i = some (l.getD i d) := by
  simp [List.getD_eq_getElem?_getD, List.getElem?_eq_getElem hi]


theorem perfect_stored (t : InternalHashTable) (es : List Int) (hpf : t.PerfectFor es)
    (x : Int) (hx : x ∈ es) :
    t.info_.get? (t.hash_function_.slot (es.length * es.length) x) = some (some x) := by
  have hpos : 0 < es.length := List.length_pos_of_mem hx
  have hlt := slot_lt t.hash_function_ x (Nat.mul_pos hpos hpos)
  rw [getD_eq_get? _ _ none (by rw [hpf.size]; exact hlt), hpf.stored _ hlt,
    keysAt_eq_singleton _ es x hx (hpf.injective _)]
  rfl

theorem perfect_injective (t : InternalHashTable) (es : List Int) (hpf : t.PerfectFor es)
    (x y : Int) (hx : x ∈ es) (hy : y ∈ es)
    (hxy : t.hash_function_.slot (es.length * es.length) x
      = t.hash_function_.slot (es.length * es.length) y) : x = y := by
  have h1 := keysAt_eq_singleton _ es x hx (hpf.injective _)
  have h2 : y ∈ t.hash_function_.keysAt es (t.hash_function_.slot (es.length * es.length) x) :=
    (mem_keysAt _ es _ y).mpr ⟨hy, hxy.symm⟩
  rw [h1] at h2
  exact (List.mem_singleton.mp h2).symm

theorem perfect_empty (t : InternalHashTable) (es : List Int) (hpf : t.PerfectFor es)
    (i : Nat) (hi : i < es.length * es.length)
    (hno : ∀ x, x ∈ es → t.hash_function_.slot (es.length * es.length) x ≠ i) :
    t.info_.get? i = some none := by
  rw [getD_eq_get? _ _ none (by rw [hpf.size]; exact hi), hpf.stored _ hi]
  have : t.hash_function_.keysAt es i = [] := by
    apply List.eq_nil_iff_forall_not_mem.mpr
    intro x hx
    have := (mem_keysAt _ es i x).mp hx
    exact hno x this.1 this.2
  rw [this]
  rfl

theorem perfect_occupied (t : InternalHashTable) (es : List Int) (hpf : t.PerfectFor es) :
    t.info_.countP Option.isSome = es.length := by
  rcases Nat.eq_zero_or_pos es.length with h0 | hpos
  · have hnil : t.info_ = [] := List.length_eq_zero.mp (by rw [hpf.size, h0])
    rw [hnil, h0]
    rfl
  · obtain ⟨counts, -, hlen, hget, hsum⟩ :=
      computeCollisions_full es t.hash_function_ (es.length * es.length) hpf.positive
        (Nat.mul_pos hpos hpos)
    have := countP_isSome_eq_sum t.info_ counts (by rw [hpf.size, hlen]) (by
      intro i hi
      rw [hpf.size] at hi
      rw [hget i hi, List.countP_eq_length_filter, hpf.stored i hi]
      have hinj := hpf.injective i
      unfold HashFunction.keysAt at hinj ⊢
      match hl : es.filter (fun e => decide
          (t.hash_function_.slot (es.length * es.length) e = i)), hinj with
      | [], _ => rfl
      | [y], _ => rfl
      | _ :: _ :: _, hinj => simp at hinj)
    rw [hsum] at this
    exact_mod_cast this


/-! The outer search and the loop over the buckets. -/

theorem foldl_squares_eq (l : List Int) (c : Int) :
    l.foldl (fun acc elem => acc + elem * elem) c = c + (l.map (fun x => x * x)).sum := by
  induction l generalizing c with
  | nil => simp
  | cons e l ih => simp only [List.foldl, ih, List.map_cons, List.sum_cons]; ring

theorem computeMemory_eq (self : FixedSet) (sizes : List Int) :
    self.ComputeMemory sizes = ((sizes.map (fun x => x * x)).sum,
      { self with additional_memory := (sizes.map (fun x => x * x)).sum }) := by
  simp [FixedSet.ComputeMemory, foldl_squares_eq]

/-- The result of `FixedSet::FindHashFunction`: the accepted function has modulus `kPrime`
and cost at most `4 * n`, the cost is left in the field `additional_memory`, and the other
fields are untouched. -/
theorem findHashFunction_spec (es : List Int) : ∀ (fuel : Nat) (self : FixedSet)
    (g : Generator) (h : HashFunction) (s2 : FixedSet) (g2 : Generator),
    self.FindHashFunction es g fuel = Except.ok (h, s2, g2) →
      h.modulus = kPrime ∧ s2.hash_function_ = self.hash_function_ ∧
      s2.hash_tables_ = self.hash_tables_ ∧
      ∃ counts, FixedSet.ComputeCollisions es h es.length = Except.ok counts ∧
        s2.additional_memory = (counts.map (fun x => x * x)).sum ∧
        s2.additional_memory ≤ 4 * (es.length : Int) := by
  intro fuel
  induction fuel with
  | zero => intro self g h s2 g2 hr; simp [FixedSet.FindHashFunction] at hr
  | succ fuel ih =>
    intro self g h s2 g2 hr
    simp only [FixedSet.FindHashFunction, HashFunction.GenerateRandom, bind, Except.bind] at hr
    split at hr
    · simp at hr
    · rename_i counts hc
      rw [computeMemory_eq] at hr
      simp only at hr
      split at hr
      · obtain ⟨h1, h2, h3, h4⟩ := ih _ _ h s2 g2 hr
        exact ⟨h1, h2, h3, h4⟩
      · rename_i hle
        simp only [pure, Except.pure] at hr
        injection hr with hr
        injection hr with h1 hr
        injection hr with h2 h3
        subst h1 h2
        exact ⟨rfl, rfl, rfl, counts, hc, rfl, by simpa using hle⟩

/-- The tables that the loop of `FixedSet::BuildHashTables` appends: one perfect table per
bucket, in bucket order. -/
theorem buildLoop_spec (backets : List (List Int)) (fuel : Nat) : ∀ (remaining : Nat)
    (self : FixedSet) (g : Generator) (index : Nat) (st : FixedSet) (g2 : Generator),
    FixedSet.buildLoop backets fuel self g index remaining = Except.ok (st, g2) →
      st.additional_memory = self.additional_memory ∧
      st.hash_function_ = self.hash_function_ ∧
      ∃ tables, st.hash_tables_ = self.hash_tables_ ++ tables ∧ tables.length = remaining ∧
        ∀ j, j < remaining → ∃ b, backets.get? (index + j) = some b ∧
          (tables.getD j default).PerfectFor b := by
  intro remaining
  induction remaining with
  | zero =>
    intro self g index st g2 hr
    simp only [FixedSet.buildLoop, pure, Except.pure] at hr
    injection hr with hr
    injection hr with h1 h2
    subst h1
    exact ⟨rfl, rfl, [], by simp, rfl, by intro j hj; omega⟩
  | succ remaining ih =>
    intro self g index st g2 hr
    simp only [FixedSet.buildLoop, bind, Except.bind] at hr
    split at hr
    · simp at hr
    · rename_i b hb
      split at hr
      · simp at hr
      · rename_i r hinit
        obtain ⟨table, g1⟩ := r
        obtain ⟨h1, h2, tables, h3, h4, h5⟩ := ih _ _ _ st g2 hr
        have hpf := init_perfect b g fuel table g1 hinit
        have hbget : backets.get? index = some b := by
          simp only [vecGet] at hb
          split at hb
          · simp at hb
          · split at hb
            · rename_i x hx
              injection hb with hb
              subst hb
              simpa using hx
            · simp at hb
        refine ⟨h1, h2, table :: tables, by simp [h3], by simp [h4], ?_⟩
        intro j hj
        cases j with
        | zero => exact ⟨b, by simpa using hbget, by simpa using hpf⟩
        | succ j =>
          obtain ⟨b2, hb2, hpf2⟩ := h5 j (by omega)
          refine ⟨b2, ?_, by simpa using hpf2⟩
          rw [← hb2]
          congr 1
          omega


/-! The state after `FixedSet::Initialize`. -/

theorem clear_tables (self : FixedSet) :
    (if !self.hash_tables_.isEmpty then { self with hash_tables_ := [] } else self).hash_tables_
      = [] := by
  cases h : self.hash_tables_ with
  | nil => simp [h]
  | cons a l => simp [h]

/-- The state that `FixedSet::Initialize` leaves: an outer function of modulus `kPrime` and
cost at most `4 * n`, the cost in `additional_memory`, and one perfect inner table per
bucket. -/
theorem init_spec (self : FixedSet) (es : List Int) (seed : Generator) (fuel : Nat)
    (st : FixedSet) (h : self.Initialize es seed fuel = Except.ok st) :
    st.hash_function_.modulus = kPrime ∧ st.hash_tables_.length = es.length ∧
    (∀ i, i < es.length →
      (st.hash_tables_.getD i default).PerfectFor (st.hash_function_.bucket es i)) ∧
    ∃ counts, FixedSet.ComputeCollisions es st.hash_function_ es.length = Except.ok counts ∧
      st.additional_memory = (counts.map (fun x => x * x)).sum ∧
      st.additional_memory ≤ 4 * (es.length : Int) := by
  simp only [FixedSet.Initialize, bind, Except.bind] at h
  split at h
  · simp at h
  · rename_i r hfind
    obtain ⟨hf, s2, g1⟩ := r
    obtain ⟨hmod, -, htab, counts, hc, ham, hle⟩ := findHashFunction_spec es fuel _ seed hf s2 g1 hfind
    rw [clear_tables] at htab
    simp only [FixedSet.BuildHashTables, bind, Except.bind] at h
    split at h
    · simp at h
    · rename_i r2 hbuild
      obtain ⟨st2, g2⟩ := r2
      simp only [pure, Except.pure] at h
      injection h with h
      subst h
      split at hbuild
      · simp at hbuild
      · rename_i backets hb
        have hp : hf.Positive := by
          have := kPrime_positive hf.arg_a hf.arg_b
          rw [← hmod] at this
          exact this
        obtain ⟨backets2, hb2, hlen, hget⟩ :=
          buildBackets_spec { s2 with hash_function_ := hf } es hp
        rw [hb2] at hb
        injection hb with hb
        subst hb
        obtain ⟨h1, h2, tables, h3, h4, h5⟩ := buildLoop_spec _ fuel _ _ _ _ st2 g2 hbuild
        simp only at h1 h2 h3
        rw [htab, List.nil_append] at h3
        refine ⟨by rw [h2]; exact hmod, by rw [h3, h4], ?_, counts, by rw [h2]; exact hc,
          by rw [h1]; exact ham, by rw [h1]; exact hle⟩
        intro i hi
        obtain ⟨b, hbi, hpf⟩ := h5 i hi
        rw [Nat.zero_add, getD_eq_get? _ _ [] (by rw [hlen]; exact hi)] at hbi
        injection hbi with hbi
        rw [h3, h2, HashFunction.bucket, ← hget i hi, hbi]
        exact hpf


/-! Membership queries. -/

/-- A perfect inner table answers membership in its bucket. -/
theorem perfect_contains (t : InternalHashTable) (es : List Int) (hpf : t.PerfectFor es)
    (v : Int) : t.Contains v = Except.ok (decide (v ∈ es)) := by
  rcases Nat.eq_zero_or_pos es.length with h0 | hpos
  · have hnil : t.info_ = [] := List.length_eq_zero.mp (by rw [hpf.size, h0])
    have hes : es = [] := List.length_eq_zero.mp h0
    simp [InternalHashTable.Contains, hnil, hes]
    rfl
  · have hm : 0 < es.length * es.length := Nat.mul_pos hpos hpos
    have hne : t.info_.isEmpty = false := by
      cases hl : t.info_ with
      | nil => have := hpf.size; rw [hl] at this; simp only [List.length_nil] at this; omega
      | cons a l => rfl
    have hlt := slot_lt t.hash_function_ v hm
    have hget : vecGet t.info_ ((t.hash_function_.slot (es.length * es.length) v : Nat) : Int)
        = Except.ok ((t.hash_function_.keysAt es
            (t.hash_function_.slot (es.length * es.length) v)).head?) := by
      apply vecGet_nat
      rw [getD_eq_get? _ _ none (by rw [hpf.size]; exact hlt), hpf.stored _ hlt]
    simp only [InternalHashTable.Contains, hne, Bool.false_eq_true, if_false,
      apply_eq_value _ v hpf.positive, hpf.size, remSize_value _ v hpf.positive hm, hget,
      bind, Except.bind]
    by_cases hv : v ∈ es
    · rw [keysAt_eq_singleton _ es v hv (hpf.injective _)]
      simp [hv, pure, Except.pure]
    · cases hh : (t.hash_function_.keysAt es
          (t.hash_function_.slot (es.length * es.length) v)).head? with
      | none => simp [hv, pure, Except.pure]
      | some w =>
        have hw : w ∈ t.hash_function_.keysAt es
            (t.hash_function_.slot (es.length * es.length) v) := List.mem_of_mem_head? hh
        have hwes := ((mem_keysAt _ es _ w).mp hw).1
        have hne2 : w ≠ v := by
          intro heq
          rw [heq] at hwes
          exact hv hwes
        simp [hv, hne2, pure, Except.pure]



/-! Independence of the earlier state. -/

/-- The search of `FixedSet::FindHashFunction` reads nothing of the set: started from two
sets it returns the same function and generator, and it writes only `additional_memory`. -/
theorem findHashFunction_frame (es : List Int) : ∀ (fuel : Nat) (self other : FixedSet)
    (g : Generator),
    self.FindHashFunction es g fuel =
      match other.FindHashFunction es g fuel with
      | Except.ok (h, s, g2) =>
        Except.ok (h, { self with additional_memory := s.additional_memory }, g2)
      | Except.error e => Except.error e := by
  intro fuel
  induction fuel with
  | zero => intro self other g; rfl
  | succ fuel ih =>
    intro self other g
    simp only [FixedSet.FindHashFunction, HashFunction.GenerateRandom, bind, Except.bind]
    cases FixedSet.ComputeCollisions es ⟨g.draws g.pos, g.draws (g.pos + 1), kPrime⟩ es.length with
    | error e => rfl
    | ok counts =>
      simp only [computeMemory_eq]
      split
      · rw [ih { self with additional_memory := (counts.map (fun x => x * x)).sum }
          { other with additional_memory := (counts.map (fun x => x * x)).sum }]
      · rfl

/-- The state that `FixedSet::Initialize` leaves, computed from the key list, the stream and
the fuel alone. -/
theorem init_eq (self : FixedSet) (es : List Int) (seed : Generator) (fuel : Nat) :
    self.Initialize es seed fuel =
      match FixedSet.FindHashFunction ⟨0, default, []⟩ es seed fuel with
      | Except.ok (h, s, g) =>
        (match FixedSet.BuildHashTables ⟨s.additional_memory, h, []⟩ es g fuel with
          | Except.ok (st, _) => Except.ok st
          | Except.error e => Except.error e)
      | Except.error e => Except.error e := by
  simp only [FixedSet.Initialize, bind, Except.bind]
  rw [findHashFunction_frame es fuel _ ⟨0, default, []⟩ seed]
  cases FixedSet.FindHashFunction ⟨0, default, []⟩ es seed fuel with
  | error e => rfl
  | ok r =>
    obtain ⟨h, s, g⟩ := r
    simp only [clear_tables, pure, Except.pure]
    cases FixedSet.BuildHashTables ⟨s.additional_memory, h, []⟩ es g fuel with
    | error e => rfl
    | ok r => rfl



/-! Single rounds of the loops, and the build of one key. -/

/-- One round of the loop of `FixedSet::FindHashFunction`. -/
theorem findHashFunction_succ (self : FixedSet) (es : List Int) (g : Generator) (fuel : Nat)
    (counts : List Int)
    (hc : FixedSet.ComputeCollisions es ⟨g.draws g.pos, g.draws (g.pos + 1), kPrime⟩ es.length
      = Except.ok counts) :
    self.FindHashFunction es g (fuel + 1) =
      if (counts.map (fun x => x * x)).sum > 4 * (es.length : Int) then
        FixedSet.FindHashFunction { self with additional_memory := (counts.map (fun x => x * x)).sum }
          es { g with pos := g.pos + 2 } fuel
      else
        Except.ok (⟨g.draws g.pos, g.draws (g.pos + 1), kPrime⟩,
          { self with additional_memory := (counts.map (fun x => x * x)).sum },
          { g with pos := g.pos + 2 }) := by
  simp only [FixedSet.FindHashFunction, HashFunction.GenerateRandom, hc, computeMemory_eq, bind,
    Except.bind, pure, Except.pure]

/-- One round of the resampling loop of `InternalHashTable::Initialize`. -/
theorem resample_succ (self : InternalHashTable) (es : List Int) (g : Generator) (fuel : Nat)
    (verdict : Bool)
    (hv : InternalHashTable.HasCollisions
      { self with hash_function_ := ⟨g.draws g.pos, g.draws (g.pos + 1), kPrime⟩ } es
      = Except.ok verdict) :
    self.resample es g (fuel + 1) =
      if verdict = true then
        InternalHashTable.resample
          { self with hash_function_ := ⟨g.draws g.pos, g.draws (g.pos + 1), kPrime⟩ } es
          { g with pos := g.pos + 2 } fuel
      else
        Except.ok ({ self with hash_function_ := ⟨g.draws g.pos, g.draws (g.pos + 1), kPrime⟩ },
          { g with pos := g.pos + 2 }) := by
  simp only [InternalHashTable.resample, HashFunction.GenerateRandom, hv, bind, Except.bind,
    pure, Except.pure]

/-- The two phases of `InternalHashTable::Initialize`. -/
theorem init_of_resample (self : InternalHashTable) (es : List Int) (g : Generator)
    (fuel : Nat) (t t2 : InternalHashTable) (g2 : Generator)
    (hr : InternalHashTable.resample
      { self with info_ := vecResize self.info_ (es.length * es.length) } es g fuel
      = Except.ok (t, g2))
    (hb : t.BuildHashTable es = Except.ok t2) :
    self.Initialize es g fuel = Except.ok (t2, g2) := by
  simp only [InternalHashTable.Initialize, hr, hb, bind, Except.bind, pure, Except.pure]

/-- A fault of the resampling loop is a fault of `InternalHashTable::Initialize`. -/
theorem init_of_resample_error (self : InternalHashTable) (es : List Int) (g : Generator)
    (fuel : Nat) (e : Fault)
    (hr : InternalHashTable.resample
      { self with info_ := vecResize self.info_ (es.length * es.length) } es g fuel
      = Except.error e) :
    self.Initialize es g fuel = Except.error e := by
  simp only [InternalHashTable.Initialize, hr, bind, Except.bind]

/-- One round of the loop of `FixedSet::BuildHashTables`. -/
theorem buildLoop_succ (backets : List (List Int)) (fuel : Nat) (self : FixedSet)
    (g : Generator) (index remaining : Nat) (b : List Int) (table : InternalHashTable)
    (g2 : Generator) (hb : backets.get? index = some b)
    (hi : InternalHashTable.Initialize {} b g fuel = Except.ok (table, g2)) :
    FixedSet.buildLoop backets fuel self g index (remaining + 1) =
      FixedSet.buildLoop backets fuel
        { self with hash_tables_ := self.hash_tables_ ++ [table] } g2 (index + 1) remaining := by
  simp only [FixedSet.buildLoop, vecGet_nat backets index b hb, hi, bind, Except.bind]

/-- A fault of an inner build is a fault of the loop of `FixedSet::BuildHashTables`. -/
theorem buildLoop_error (backets : List (List Int)) (fuel : Nat) (self : FixedSet)
    (g : Generator) (index remaining : Nat) (b : List Int) (e : Fault)
    (hb : backets.get? index = some b)
    (hi : InternalHashTable.Initialize {} b g fuel = Except.error e) :
    FixedSet.buildLoop backets fuel self g index (remaining + 1) = Except.error e := by
  simp only [FixedSet.buildLoop, vecGet_nat backets index b hb, hi, bind, Except.bind]

/-- The function `FixedSet::BuildHashTables` is its loop over the buckets. -/
theorem buildHashTables_eq (self : FixedSet) (es : List Int) (g : Generator) (fuel : Nat)
    (backets : List (List Int)) (hb : self.BuildBackets es = Except.ok backets) :
    self.BuildHashTables es g fuel = FixedSet.buildLoop backets fuel self g 0 es.length := by
  simp only [FixedSet.BuildHashTables, hb, bind, Except.bind]

theorem slot_one (h : HashFunction) (x : Int) : h.slot 1 x = 0 := by
  have := slot_lt h x (show 0 < 1 by decide)
  omega

theorem computeCollisions_single (h : HashFunction) (hp : h.Positive) (x : Int) :
    FixedSet.ComputeCollisions [x] h 1 = Except.ok [1] := by
  rw [computeCollisions_eq_foldl [x] h hp (show 0 < 1 by decide)]
  simp [slot_one, List.modify, List.modifyHead]

theorem buildBackets_single (self : FixedSet) (hp : self.hash_function_.Positive) (x : Int) :
    self.BuildBackets [x] = Except.ok [[x]] := by
  have := foldlM_modify (self.hash_function_.slot 1) (fun e backet => backet ++ [e]) _ 1
    (fun acc e hacc => buildBackets_body _ hp (show 0 < 1 by decide) acc e hacc) [x] [[]] rfl
  simp only [FixedSet.BuildBackets, List.length_singleton, List.replicate]
  rw [this]
  simp [slot_one, List.modify, List.modifyHead]

theorem buildHashTable_single (t : InternalHashTable) (hp : t.hash_function_.Positive)
    (hinfo : t.info_ = [none]) (x : Int) :
    t.BuildHashTable [x] = Except.ok { t with info_ := [some x] } := by
  have := foldlM_modify (t.hash_function_.slot 1) (fun e _ => some e) _ 1
    (fun acc e hacc => buildHashTable_body _ hp (show 0 < 1 by decide) acc e hacc) [x] [none] rfl
  rw [InternalHashTable.BuildHashTable, hinfo, this]
  simp [slot_one, List.modify, List.modifyHead, pure, Except.pure, bind, Except.bind]

/-- The inner table of a bucket of one key: the first candidate is accepted. -/
theorem init_inner_single (g : Generator) (fuel : Nat) (x : Int) :
    InternalHashTable.Initialize {} [x] g (fuel + 1) = Except.ok
      (⟨⟨g.draws g.pos, g.draws (g.pos + 1), kPrime⟩, [some x]⟩, { g with pos := g.pos + 2 }) := by
  have hv : InternalHashTable.HasCollisions
      ⟨⟨g.draws g.pos, g.draws (g.pos + 1), kPrime⟩, [none]⟩ [x] = Except.ok false := by
    simp only [InternalHashTable.HasCollisions, List.length_singleton, Nat.mul_one,
      computeCollisions_single _ (kPrime_positive _ _), bind, Except.bind, pure, Except.pure]
    rfl
  apply init_of_resample _ _ _ _ ⟨⟨g.draws g.pos, g.draws (g.pos + 1), kPrime⟩, [none]⟩
  · exact (resample_succ ⟨default, [none]⟩ [x] g fuel false hv).trans rfl
  · exact buildHashTable_single _ (kPrime_positive _ _) rfl x


/-! Keys that are congruent modulo `kPrime`. -/

theorem value_kPrime (a b x : Int) (ha0 : 0 ≤ a) (ha : a ≤ 2147483646)
    (hb0 : 0 ≤ b) (hb : b ≤ 2147483646) (hx0 : -2147483648 ≤ x) (hx : x ≤ 2147483647) :
    HashFunction.value ⟨a, b, kPrime⟩ x = (a * x + b) % kPrime := by
  simp [HashFunction.value, apply_kPrime a b x ha0 ha hb0 hb hx0 hx]

/-- The keys `0` and `2147483647 = kPrime` have the same hash value under every function
that the generator can produce. -/
theorem value_congruent (a b : Int) (ha0 : 0 ≤ a) (ha : a ≤ 2147483646)
    (hb0 : 0 ≤ b) (hb : b ≤ 2147483646) :
    HashFunction.value ⟨a, b, kPrime⟩ 2147483647 = HashFunction.value ⟨a, b, kPrime⟩ 0 := by
  rw [value_kPrime a b 2147483647 ha0 ha hb0 hb (by decide) (by decide),
    value_kPrime a b 0 ha0 ha hb0 hb (by decide) (by decide)]
  have hpv : kPrime = 2147483647 := rfl
  rw [hpv, Int.add_comm, Int.add_mul_emod_self]
  simp

theorem slot_congruent (a b : Int) (ha0 : 0 ≤ a) (ha : a ≤ 2147483646)
    (hb0 : 0 ≤ b) (hb : b ≤ 2147483646) (m : Nat) :
    HashFunction.slot ⟨a, b, kPrime⟩ m 2147483647 = HashFunction.slot ⟨a, b, kPrime⟩ m 0 := by
  simp only [HashFunction.slot, value_congruent a b ha0 ha hb0 hb]

/-- The verdict of `InternalHashTable::HasCollisions` on the bucket `[0, 2147483647]` is a
collision, for every function that the generator can produce. -/
theorem hasCollisions_congruent (a b : Int) (ha0 : 0 ≤ a) (ha : a ≤ 2147483646)
    (hb0 : 0 ≤ b) (hb : b ≤ 2147483646) (info : List (Option Int)) :
    InternalHashTable.HasCollisions ⟨⟨a, b, kPrime⟩, info⟩ [0, 2147483647] = Except.ok true := by
  obtain ⟨verdict, hv, hiff⟩ :=
    hasCollisions_spec ⟨⟨a, b, kPrime⟩, info⟩ [0, 2147483647] (kPrime_positive a b)
  have : verdict = true := by
    apply hiff.mpr
    refine ⟨HashFunction.slot ⟨a, b, kPrime⟩ 4 0, slot_lt _ _ (by decide), ?_⟩
    have hs := slot_congruent a b ha0 ha hb0 hb 4
    simp [HashFunction.keysAt, List.filter, hs]
  rw [hv, this]

/-- The resampling loop of `InternalHashTable::Initialize` on the bucket `[0, 2147483647]`
rejects every candidate: it uses up any fuel. -/
theorem resample_congruent : ∀ (fuel : Nat) (self : InternalHashTable) (g : Generator),
    g.InRange → self.resample [0, 2147483647] g fuel = Except.error Fault.fuel := by
  intro fuel
  induction fuel with
  | zero => intro self g _; rfl
  | succ fuel ih =>
    intro self g hg
    rw [resample_succ self [0, 2147483647] g fuel true
      (hasCollisions_congruent _ _ (hg _).1 (hg _).2 (hg _).1 (hg _).2 _)]
    exact ih _ _ hg

theorem init_inner_congruent (fuel : Nat) (g : Generator) (hg : g.InRange) :
    InternalHashTable.Initialize {} [0, 2147483647] g fuel = Except.error Fault.fuel :=
  init_of_resample_error _ _ _ _ _ (resample_congruent fuel _ g hg)

theorem init_inner_nil (fuel : Nat) (g : Generator) :
    InternalHashTable.Initialize {} [] g (fuel + 1) = Except.ok
      (⟨⟨g.draws g.pos, g.draws (g.pos + 1), kPrime⟩, []⟩, { g with pos := g.pos + 2 }) := rfl

theorem computeCollisions_congruent (h : HashFunction) (hp : h.Positive)
    (hs : h.slot 2 2147483647 = h.slot 2 0) :
    FixedSet.ComputeCollisions [0, 2147483647] h 2
      = Except.ok (if h.slot 2 0 = 0 then [2, 0] else [0, 2]) := by
  rw [computeCollisions_eq_foldl _ h hp (show 0 < 2 by decide)]
  have hlt := slot_lt h 0 (show 0 < 2 by decide)
  have h01 : h.slot 2 0 = 0 ∨ h.slot 2 0 = 1 := by omega
  rcases h01 with h0 | h1
  · simp [hs, h0, List.modify, List.modifyHead]
  · simp [hs, h1, List.modify, List.modifyHead, List.modifyTailIdx]

theorem buildBackets_congruent (self : FixedSet) (hp : self.hash_function_.Positive)
    (hs : self.hash_function_.slot 2 2147483647 = self.hash_function_.slot 2 0) :
    self.BuildBackets [0, 2147483647]
      = Except.ok (if self.hash_function_.slot 2 0 = 0 then [[0, 2147483647], []]
          else [[], [0, 2147483647]]) := by
  have := foldlM_modify (self.hash_function_.slot 2) (fun e backet => backet ++ [e]) _ 2
    (fun acc e hacc => buildBackets_body _ hp (show 0 < 2 by decide) acc e hacc)
    [0, 2147483647] [[], []] rfl
  simp only [FixedSet.BuildBackets, List.length_cons, List.length_nil, List.replicate]
  rw [this]
  have hlt := slot_lt self.hash_function_ 0 (show 0 < 2 by decide)
  have h01 : self.hash_function_.slot 2 0 = 0 ∨ self.hash_function_.slot 2 0 = 1 := by omega
  rcases h01 with h0 | h1
  · simp [hs, h0, List.modify, List.modifyHead]
  · simp [hs, h1, List.modify, List.modifyHead, List.modifyTailIdx]

/-- The build of the key list `[0, 2147483647]` never terminates: whatever the fuel, the
outer function is accepted and the inner table of the bucket of the two keys is out of
fuel. -/
theorem init_congruent (self : FixedSet) (seed : Generator) (hg : seed.InRange)
    (fuel : Nat) : self.Initialize [0, 2147483647] seed fuel = Except.error Fault.fuel := by
  rw [init_eq]
  cases fuel with
  | zero => rfl
  | succ fuel =>
    have hs := slot_congruent _ _ (hg seed.pos).1 (hg seed.pos).2 (hg (seed.pos + 1)).1
      (hg (seed.pos + 1)).2 2
    have hfind := findHashFunction_succ ⟨0, default, []⟩ [0, 2147483647] seed fuel _
      (computeCollisions_congruent _ (kPrime_positive _ _) hs)
    have hcost : ¬ ((List.map (fun x => x * x)
        (if HashFunction.slot ⟨seed.draws seed.pos, seed.draws (seed.pos + 1), kPrime⟩ 2 0 = 0
          then [2, 0] else [0, 2])).sum > 4 * (([0, 2147483647] : List Int).length : Int)) := by
      split <;> decide
    rw [if_neg hcost] at hfind
    rw [hfind]
    simp only
    have hg2 : Generator.InRange { seed with pos := seed.pos + 2 } := hg
    rw [buildHashTables_eq _ _ _ _ _
      (buildBackets_congruent
        ⟨_, ⟨seed.draws seed.pos, seed.draws (seed.pos + 1), kPrime⟩, []⟩
        (kPrime_positive _ _) hs)]
    by_cases h0 : HashFunction.slot ⟨seed.draws seed.pos, seed.draws (seed.pos + 1), kPrime⟩ 2 0 = 0
    · simp only [h0, if_true]
      have key : ∀ s : FixedSet, FixedSet.buildLoop [[0, 2147483647], []] (fuel + 1) s
          { seed with pos := seed.pos + 2 } 0 ([0, 2147483647] : List Int).length
          = Except.error Fault.fuel := fun s =>
        buildLoop_error [[0, 2147483647], []] (fuel + 1) s _ 0 1 [0, 2147483647] Fault.fuel rfl
          (init_inner_congruent _ _ hg2)
      rw [key]
    · simp only [h0, if_false]
      have hg3 : Generator.InRange { seed with pos := seed.pos + 2 + 2 } := hg
      have key : ∀ s : FixedSet, FixedSet.buildLoop [[], [0, 2147483647]] (fuel + 1) s
          { seed with pos := seed.pos + 2 } 0 ([0, 2147483647] : List Int).length
          = Except.error Fault.fuel := fun s =>
        (buildLoop_succ [[], [0, 2147483647]] (fuel + 1) s _ 0 1 [] _ _ rfl
          (init_inner_nil fuel _)).trans
        (buildLoop_error [[], [0, 2147483647]] (fuel + 1) _ _ 1 0 [0, 2147483647] Fault.fuel rfl
          (init_inner_congruent _ _ hg3))
      rw [key]


/-! Independence of the fuel. -/

/-- More fuel does not change a result of `FixedSet::FindHashFunction`. -/
theorem findHashFunction_mono (es : List Int) : ∀ (fuel : Nat) (self : FixedSet)
    (g : Generator) (r : HashFunction × FixedSet × Generator),
    self.FindHashFunction es g fuel = Except.ok r →
      ∀ extra, self.FindHashFunction es g (fuel + extra) = Except.ok r := by
  intro fuel
  induction fuel with
  | zero => intro self g r h; simp [FixedSet.FindHashFunction] at h
  | succ fuel ih =>
    intro self g r h extra
    rw [Nat.add_right_comm]
    cases hc : FixedSet.ComputeCollisions es ⟨g.draws g.pos, g.draws (g.pos + 1), kPrime⟩
        es.length with
    | error e =>
      simp [FixedSet.FindHashFunction, HashFunction.GenerateRandom, hc, bind, Except.bind] at h
    | ok counts =>
      rw [findHashFunction_succ self es g _ counts hc] at h ⊢
      split
      · rename_i hgt
        rw [if_pos hgt] at h
        exact ih _ _ r h extra
      · rename_i hle
        rw [if_neg hle] at h
        exact h

/-- More fuel does not change a result of the resampling loop. -/
theorem resample_mono (es : List Int) : ∀ (fuel : Nat) (self : InternalHashTable)
    (g : Generator) (r : InternalHashTable × Generator),
    self.resample es g fuel = Except.ok r →
      ∀ extra, self.resample es g (fuel + extra) = Except.ok r := by
  intro fuel
  induction fuel with
  | zero => intro self g r h; simp [InternalHashTable.resample] at h
  | succ fuel ih =>
    intro self g r h extra
    rw [Nat.add_right_comm]
    cases hv : InternalHashTable.HasCollisions
        { self with hash_function_ := ⟨g.draws g.pos, g.draws (g.pos + 1), kPrime⟩ } es with
    | error e =>
      simp [InternalHashTable.resample, HashFunction.GenerateRandom, hv, bind, Except.bind] at h
    | ok verdict =>
      rw [resample_succ self es g _ verdict hv] at h ⊢
      split
      · rename_i hgt
        rw [if_pos hgt] at h
        exact ih _ _ r h extra
      · rename_i hle
        rw [if_neg hle] at h
        exact h

/-- More fuel does not change a result of `InternalHashTable::Initialize`. -/
theorem init_inner_mono (self : InternalHashTable) (es : List Int) (g : Generator)
    (fuel : Nat) (r : InternalHashTable × Generator)
    (h : self.Initialize es g fuel = Except.ok r) (extra : Nat) :
    self.Initialize es g (fuel + extra) = Except.ok r := by
  simp only [InternalHashTable.Initialize, bind, Except.bind] at h ⊢
  split at h
  · simp at h
  · rename_i r1 hr
    rw [resample_mono es fuel _ g r1 hr extra]
    exact h

/-- More fuel does not change a result of the loop of `FixedSet::BuildHashTables`. -/
theorem buildLoop_mono (backets : List (List Int)) (fuel extra : Nat) : ∀ (remaining : Nat)
    (self : FixedSet) (g : Generator) (index : Nat) (r : FixedSet × Generator),
    FixedSet.buildLoop backets fuel self g index remaining = Except.ok r →
      FixedSet.buildLoop backets (fuel + extra) self g index remaining = Except.ok r := by
  intro remaining
  induction remaining with
  | zero => intro self g index r h; exact h
  | succ remaining ih =>
    intro self g index r h
    simp only [FixedSet.buildLoop, bind, Except.bind] at h ⊢
    split at h
    · simp at h
    · rename_i b hb
      split at h
      · simp at h
      · rename_i r1 hi
        rw [init_inner_mono _ b g fuel r1 hi extra]
        exact ih _ _ _ r h

/-- More fuel does not change a result of `FixedSet::Initialize`. -/
theorem init_mono (self : FixedSet) (es : List Int) (seed : Generator) (fuel : Nat)
    (st : FixedSet) (h : self.Initialize es seed fuel = Except.ok st) (extra : Nat) :
    self.Initialize es seed (fuel + extra) = Except.ok st := by
  rw [init_eq] at h ⊢
  split at h
  · rename_i hf s g hfind
    rw [findHashFunction_mono es fuel _ seed _ hfind extra]
    simp only at h ⊢
    split at h
    · rename_i st2 g2 hbuild
      simp only [FixedSet.BuildHashTables, bind, Except.bind] at hbuild ⊢
      split at hbuild
      · simp at hbuild
      · rename_i backets hb
        rw [buildLoop_mono backets fuel extra _ _ _ _ _ hbuild]
        exact h
    · simp at h
  · simp at h

/-- Two terminated builds of one key list from one seed leave the same state, whatever the
earlier states of the set and the fuel given to each. -/
theorem init_unique (self other : FixedSet) (es : List Int) (seed : Generator)
    (fuel1 fuel2 : Nat) (st1 st2 : FixedSet)
    (h1 : self.Initialize es seed fuel1 = Except.ok st1)
    (h2 : other.Initialize es seed fuel2 = Except.ok st2) : st1 = st2 := by
  have e1 := init_mono self es seed fuel1 st1 h1 fuel2
  have e2 := init_mono other es seed fuel2 st2 h2 fuel1
  rw [Nat.add_comm, init_eq] at e2
  rw [init_eq, e2] at e1
  injection e1 with e1
  exact e1.symm


/-! Facts about the concrete inputs. -/

theorem getD_in_range (l : List Int) (i : Nat)
    (hl : ∀ x, x ∈ l → 0 ≤ x ∧ x ≤ 2147483646) :
    0 ≤ l.getD i 0 ∧ l.getD i 0 ≤ 2147483646 := by
  rw [List.getD_eq_getElem?_getD]
  cases h : l[i]? with
  | none => exact ⟨by decide, by decide⟩
  | some x => exact hl x (List.getElem?_mem h)

theorem demoSeed_inRange : demoSeed.InRange := by
  intro i
  apply getD_in_range
  decide

theorem demo_build : FixedSet.Initialize ⟨0, default, []⟩ demoKeys demoSeed 2 = Except.ok demoSet :=
  rfl

theorem demo_rebuild : usedSet.Initialize demoKeys demoSeed 3 = Except.ok demoSet :=
  rfl

/-! The claims. -/

/-- C1. On every key list and every random stream on which `FixedSet::Initialize`
terminates, `FixedSet::Contains(v)` returns, and returns true exactly when `v` is one of the
keys, for every integer `v`. -/
theorem contains_iff_mem (self : FixedSet) (es : List Int) (seed : Generator) (fuel : Nat)
    (st : FixedSet) (h : self.Initialize es seed fuel = Except.ok st) (v : Int) :
    st.Contains v = Except.ok (decide (v ∈ es)) := by
  obtain ⟨hmod, hlen, hpf, -⟩ := init_spec self es seed fuel st h
  have hp : st.hash_function_.Positive := by
    have := kPrime_positive st.hash_function_.arg_a st.hash_function_.arg_b
    rw [← hmod] at this
    exact this
  rcases Nat.eq_zero_or_pos es.length with h0 | hpos
  · have hnil : st.hash_tables_ = [] := List.length_eq_zero.mp (by rw [hlen, h0])
    have hes : es = [] := List.length_eq_zero.mp h0
    simp [FixedSet.Contains, hnil, hes]
    rfl
  · have hne : st.hash_tables_.isEmpty = false := by
      cases hl : st.hash_tables_ with
      | nil => have := hlen; rw [hl] at this; simp only [List.length_nil] at this; omega
      | cons a l => rfl
    have hlt := slot_lt st.hash_function_ v hpos
    have hget : vecGet st.hash_tables_ ((st.hash_function_.slot es.length v : Nat) : Int)
        = Except.ok (st.hash_tables_.getD (st.hash_function_.slot es.length v) default) :=
      vecGet_nat _ _ _ (getD_eq_get? _ _ default (by rw [hlen]; exact hlt))
    simp only [FixedSet.Contains, hne, Bool.false_eq_true, if_false,
      apply_eq_value _ v hp, hlen, remSize_value _ v hp hpos, hget, bind, Except.bind]
    rw [perfect_contains _ _ (hpf _ hlt) v]
    congr 1
    simp [HashFunction.bucket, List.mem_filter]


/-- Witness of C1: the scenario `S = [1, 2, 3, 4, 5]`, with `Contains(3)` true and
`Contains(100)`, `Contains(-5)` false. -/
theorem contains_iff_mem_witness :
    FixedSet.Initialize ⟨0, default, []⟩ demoKeys demoSeed 2 = Except.ok demoSet ∧
    demoSet.Contains 3 = Except.ok true ∧
    demoSet.Contains 100 = Except.ok false ∧
    demoSet.Contains (-5) = Except.ok false :=
  ⟨demo_build,
    contains_iff_mem ⟨0, default, []⟩ demoKeys demoSeed 2 demoSet demo_build 3,
    contains_iff_mem ⟨0, default, []⟩ demoKeys demoSeed 2 demoSet demo_build 100,
    contains_iff_mem ⟨0, default, []⟩ demoKeys demoSeed 2 demoSet demo_build (-5)⟩

/-- C2. On the empty key list, for every random stream and every earlier state of the set,
`FixedSet::FindHashFunction` accepts its first candidate (two draws), `FixedSet::Initialize`
terminates with that function and zero inner tables, and `FixedSet::Contains` then returns
false for every value. -/
theorem init_empty (self : FixedSet) (seed : Generator) (fuel : Nat) (v : Int) :
    self.FindHashFunction [] seed (fuel + 1) = Except.ok
      (⟨seed.draws seed.pos, seed.draws (seed.pos + 1), kPrime⟩,
        { self with additional_memory := 0 }, { seed with pos := seed.pos + 2 }) ∧
    self.Initialize [] seed (fuel + 1) = Except.ok
      ⟨0, ⟨seed.draws seed.pos, seed.draws (seed.pos + 1), kPrime⟩, []⟩ ∧
    FixedSet.Contains ⟨0, ⟨seed.draws seed.pos, seed.draws (seed.pos + 1), kPrime⟩, []⟩ v
      = Except.ok false := by
  refine ⟨rfl, ?_, rfl⟩
  rw [init_eq]
  rfl

/-- C3 (the failing input). The keys `0` and `2147483647` are distinct 32-bit keys, and for
every function that the generator can produce `InternalHashTable::HasCollisions` reports a
collision on their bucket; so for every random stream in the range of the distribution and
every fuel, `FixedSet::Initialize([0, 2147483647])` is out of fuel: it never terminates. -/
theorem congruent_keys_never_terminate (self : FixedSet) (seed : Generator)
    (hg : seed.InRange) :
    ([0, 2147483647] : List Int).Nodup ∧
    (∀ x, x ∈ ([0, 2147483647] : List Int) → -2147483648 ≤ x ∧ x ≤ 2147483647) ∧
    (∀ a b info, 0 ≤ a → a ≤ 2147483646 → 0 ≤ b → b ≤ 2147483646 →
      InternalHashTable.HasCollisions ⟨⟨a, b, kPrime⟩, info⟩ [0, 2147483647] = Except.ok true) ∧
    ∀ fuel, self.Initialize [0, 2147483647] seed fuel = Except.error Fault.fuel :=
  ⟨by decide, by decide,
    fun a b info ha0 ha hb0 hb => hasCollisions_congruent a b ha0 ha hb0 hb info,
    fun fuel => init_congruent self seed hg fuel⟩

/-- Witness of C3: the build of `[0, 2147483647]` on `demoSeed` is out of fuel after 1000
rounds per loop. -/
theorem congruent_keys_never_terminate_witness :
    demoSeed.InRange ∧
    FixedSet.Initialize ⟨0, default, []⟩ [0, 2147483647] demoSeed 1000
      = Except.error Fault.fuel :=
  ⟨demoSeed_inRange,
    (congruent_keys_never_terminate ⟨0, default, []⟩ demoSeed demoSeed_inRange).2.2.2 1000⟩

/-- C4. On every key list of length `n` and every random stream on which
`FixedSet::Initialize` terminates, the slot counts `info_.size()` of the inner tables sum to
the sum of the squared bucket counts of the accepted outer function, which is the value of
the field `additional_memory` and is at most `4 * n`. -/
theorem memory_bound (self : FixedSet) (es : List Int) (seed : Generator) (fuel : Nat)
    (st : FixedSet) (h : self.Initialize es seed fuel = Except.ok st) :
    ∃ counts, FixedSet.ComputeCollisions es st.hash_function_ es.length = Except.ok counts ∧
      (st.hash_tables_.map (fun t => (t.info_.length : Int))).sum
        = (counts.map (fun c => c * c)).sum ∧
      (counts.map (fun c => c * c)).sum = st.additional_memory ∧
      st.additional_memory ≤ 4 * (es.length : Int) := by
  obtain ⟨hmod, hlen, hpf, counts, hc, ham, hle⟩ := init_spec self es seed fuel st h
  refine ⟨counts, hc, ?_, ham.symm, hle⟩
  have hp : st.hash_function_.Positive := by
    have := kPrime_positive st.hash_function_.arg_a st.hash_function_.arg_b
    rw [← hmod] at this
    exact this
  have hm : 0 < es.length ∨ es = [] := by
    rcases Nat.eq_zero_or_pos es.length with h0 | hpos
    · exact Or.inr (List.length_eq_zero.mp h0)
    · exact Or.inl hpos
  obtain ⟨counts2, hc2, hclen, hcget⟩ := computeCollisions_spec es st.hash_function_ _ hp hm
  rw [hc] at hc2
  injection hc2 with hc2
  subst hc2
  congr 1
  apply List.ext_getElem
  · simp [hlen, hclen]
  · intro i h1 h2
    have hi : i < es.length := by simpa [hlen] using h1
    have hsz := (hpf i hi).size
    have hcg := hcget i hi
    rw [List.getD_eq_getElem _ _ (by rw [hlen]; exact hi)] at hsz
    rw [List.getD_eq_getElem _ _ (by rw [hclen]; exact hi)] at hcg
    simp only [List.getElem_map, hsz, hcg, HashFunction.bucket]
    push_cast
    rfl

/-- Witness of C4: the build of `demoKeys`, of cost `7 ≤ 20`. -/
theorem memory_bound_witness :
    ∃ counts, FixedSet.ComputeCollisions demoKeys demoSet.hash_function_ demoKeys.length
        = Except.ok counts ∧
      (demoSet.hash_tables_.map (fun t => (t.info_.length : Int))).sum
        = (counts.map (fun c => c * c)).sum ∧
      (counts.map (fun c => c * c)).sum = demoSet.additional_memory ∧
      demoSet.additional_memory ≤ 4 * (demoKeys.length : Int) :=
  memory_bound ⟨0, default, []⟩ demoKeys demoSeed 2 demoSet demo_build

/-- C6. For every key `x`, every random stream and every earlier state of the set,
`FixedSet::Initialize([x])` accepts its first outer candidate and its first inner candidate
and leaves one inner table of one slot that holds `x`; then `Contains(y)` is true exactly
for `y = x`. -/
theorem init_single (self : FixedSet) (seed : Generator) (fuel : Nat) (x y : Int) :
    self.Initialize [x] seed (fuel + 1) = Except.ok
      ⟨1, ⟨seed.draws seed.pos, seed.draws (seed.pos + 1), kPrime⟩,
        [⟨⟨seed.draws (seed.pos + 2), seed.draws (seed.pos + 2 + 1), kPrime⟩, [some x]⟩]⟩ ∧
    FixedSet.Contains ⟨1, ⟨seed.draws seed.pos, seed.draws (seed.pos + 1), kPrime⟩,
        [⟨⟨seed.draws (seed.pos + 2), seed.draws (seed.pos + 2 + 1), kPrime⟩, [some x]⟩]⟩ y
      = Except.ok (decide (y = x)) := by
  have hfind : FixedSet.FindHashFunction ⟨0, default, []⟩ [x] seed (fuel + 1) = Except.ok
      (⟨seed.draws seed.pos, seed.draws (seed.pos + 1), kPrime⟩, ⟨1, default, []⟩,
        { seed with pos := seed.pos + 2 }) :=
    (findHashFunction_succ ⟨0, default, []⟩ [x] seed fuel [1]
      (computeCollisions_single _ (kPrime_positive _ _) x)).trans rfl
  have hbuild : FixedSet.BuildHashTables
      ⟨1, ⟨seed.draws seed.pos, seed.draws (seed.pos + 1), kPrime⟩, []⟩ [x]
      { seed with pos := seed.pos + 2 } (fuel + 1) = Except.ok
      (⟨1, ⟨seed.draws seed.pos, seed.draws (seed.pos + 1), kPrime⟩,
        [⟨⟨seed.draws (seed.pos + 2), seed.draws (seed.pos + 2 + 1), kPrime⟩, [some x]⟩]⟩,
        { seed with pos := seed.pos + 2 + 2 }) := by
    rw [buildHashTables_eq _ _ _ _ [[x]] (buildBackets_single _ (kPrime_positive _ _) x)]
    exact (buildLoop_succ [[x]] (fuel + 1) _ _ 0 0 [x] _ _ rfl
      (init_inner_single _ fuel x)).trans rfl
  have hinit : self.Initialize [x] seed (fuel + 1) = Except.ok
      ⟨1, ⟨seed.draws seed.pos, seed.draws (seed.pos + 1), kPrime⟩,
        [⟨⟨seed.draws (seed.pos + 2), seed.draws (seed.pos + 2 + 1), kPrime⟩, [some x]⟩]⟩ := by
    rw [init_eq, hfind]
    simp only [hbuild]
  refine ⟨hinit, ?_⟩
  have hget1 : vecGet [(⟨⟨seed.draws (seed.pos + 2), seed.draws (seed.pos + 2 + 1), kPrime⟩,
      [some x]⟩ : InternalHashTable)] ((0 : Nat) : Int)
      = Except.ok ⟨⟨seed.draws (seed.pos + 2), seed.draws (seed.pos + 2 + 1), kPrime⟩,
        [some x]⟩ := rfl
  have hget2 : vecGet [some x] ((0 : Nat) : Int) = Except.ok (some x) := rfl
  simp only [FixedSet.Contains, InternalHashTable.Contains, List.isEmpty_cons,
    Bool.false_eq_true, if_false, apply_eq_value _ y (kPrime_positive _ _),
    List.length_singleton, remSize_value _ y (kPrime_positive _ _) (show 0 < 1 by decide),
    slot_one, hget1, hget2, bind, Except.bind, pure, Except.pure]
  by_cases hxy : y = x
  · simp [hxy]
  · have : ¬ x = y := fun h => hxy h.symm
    simp [hxy, this]

/-- Witness of C6: the scenario `S = [42]`, with `Contains(42)` true and `Contains(0)`
false. -/
theorem init_single_witness :
    FixedSet.Initialize ⟨0, default, []⟩ [42] demoSeed 1 = Except.ok usedSet ∧
    usedSet.Contains 42 = Except.ok true ∧ usedSet.Contains 0 = Except.ok false :=
  ⟨(init_single ⟨0, default, []⟩ demoSeed 0 42 42).1,
    (init_single ⟨0, default, []⟩ demoSeed 0 42 42).2,
    (init_single ⟨0, default, []⟩ demoSeed 0 42 0).2⟩

/-- C7. For `a`, `b` in `[0, 2147483646]`, the modulus `kPrime` and a 32-bit key `x`, the
product `a * x`, its remainder, the sum with `b`, its remainder and the final correction
all lie strictly inside the signed 64-bit range, and the wrapping computation returns the
value computed over the unbounded integers, the Euclidean remainder of `a * x + b`. -/
theorem hash_no_overflow (a b x : Int) (ha0 : 0 ≤ a) (ha : a ≤ 2147483646)
    (hb0 : 0 ≤ b) (hb : b ≤ 2147483646) (hx0 : -2147483648 ≤ x) (hx : x ≤ 2147483647) :
    (-9223372036854775808 < a * x ∧ a * x < 9223372036854775807) ∧
    (-9223372036854775808 < Int.tmod (a * x) kPrime ∧
      Int.tmod (a * x) kPrime < 9223372036854775807) ∧
    (-9223372036854775808 < Int.tmod (a * x) kPrime + b ∧
      Int.tmod (a * x) kPrime + b < 9223372036854775807) ∧
    (-9223372036854775808 < Int.tmod (Int.tmod (a * x) kPrime + b) kPrime + kPrime ∧
      Int.tmod (Int.tmod (a * x) kPrime + b) kPrime + kPrime < 9223372036854775807) ∧
    HashFunction.apply ⟨a, b, kPrime⟩ x
      = Except.ok (HashFunction.applyUnbounded ⟨a, b, kPrime⟩ x) ∧
    HashFunction.applyUnbounded ⟨a, b, kPrime⟩ x = (a * x + b) % kPrime := by
  have hp : (0 : Int) < kPrime := by decide
  have hpv : kPrime = 2147483647 := rfl
  have hmul := mul_key_range a x ha0 ha hx0 hx
  have h1lt := Int.tmod_lt_of_pos (a * x) hp
  have h1gt := tmod_gt_neg (a * x) hp
  have h2lt := Int.tmod_lt_of_pos (Int.tmod (a * x) kPrime + b) hp
  have h2gt := tmod_gt_neg (Int.tmod (a * x) kPrime + b) hp
  refine ⟨by omega, by omega, by omega, by omega, ?_, applyUnbounded_eq_emod a b kPrime x hp⟩
  exact apply_of_range a b kPrime x hp (by omega) (by omega) (by omega)

/-- Witness of C7 at the key `-2000000000` with the largest parameters. -/
theorem hash_no_overflow_witness :
    HashFunction.apply ⟨2147483646, 2147483646, kPrime⟩ (-2000000000)
      = Except.ok (HashFunction.applyUnbounded ⟨2147483646, 2147483646, kPrime⟩ (-2000000000)) :=
  (hash_no_overflow 2147483646 2147483646 (-2000000000) (by decide) (by decide) (by decide)
    (by decide) (by decide) (by decide)).2.2.2.2.1

/-- C8. For a modulus `m > 0` (an `int64_t`) and `a`, `b`, `x` for which neither the product
`a * x` nor the sum of its remainder with `b` leaves the 64-bit range,
`HashFunction(a, b, m)(x)` is the Euclidean remainder of `a * x + b` modulo `m`,
a value of `[0, m)`. -/
theorem hash_value_is_euclidean_remainder (a b m x : Int) (hm : 0 < m)
    (hm64 : m < 9223372036854775808)
    (h1 : -9223372036854775808 ≤ a * x ∧ a * x < 9223372036854775808)
    (h2 : -9223372036854775808 ≤ Int.tmod (a * x) m + b ∧
      Int.tmod (a * x) m + b < 9223372036854775808) :
    HashFunction.apply ⟨a, b, m⟩ x = Except.ok ((a * x + b) % m) ∧
      0 ≤ (a * x + b) % m ∧ (a * x + b) % m < m := by
  refine ⟨?_, Int.emod_nonneg _ (by omega), Int.emod_lt_of_pos _ hm⟩
  rw [apply_of_range a b m x hm hm64 h1 h2, applyUnbounded_eq_emod a b m x hm]

/-- Witness of C8 on a negative product: `a = 3`, `b = 5`, `m = 7`, `x = -4`, where the
truncating remainders are `-5` and `0`. -/
theorem hash_value_is_euclidean_remainder_witness :
    HashFunction.apply ⟨3, 5, 7⟩ (-4) = Except.ok ((3 * (-4) + 5) % 7) ∧
      0 ≤ (3 * (-4) + 5) % (7 : Int) ∧ (3 * (-4) + 5) % (7 : Int) < 7 :=
  hash_value_is_euclidean_remainder 3 5 7 (-4) (by decide) (by decide) (by decide) (by decide)

/-- C9. The state that `FixedSet::Initialize(E)` leaves does not depend on the state of the
set before the call: a rebuild of a set that held any other key list and a build of a fresh
set give the same result, faults and missing fuel included; and two terminated builds of
the same key list from the same seed leave identical states, whatever fuel each was given. -/
theorem init_rebuild (self other : FixedSet) (es : List Int) (seed : Generator) :
    (∀ fuel, self.Initialize es seed fuel = other.Initialize es seed fuel) ∧
    (∀ fuel1 fuel2 st1 st2, self.Initialize es seed fuel1 = Except.ok st1 →
      other.Initialize es seed fuel2 = Except.ok st2 → st1 = st2) :=
  ⟨fun fuel => by rw [init_eq self, init_eq other],
    fun fuel1 fuel2 st1 st2 h1 h2 => init_unique self other es seed fuel1 fuel2 st1 st2 h1 h2⟩

/-- Witness of C9: a fresh set and a set built before from `[42]`, both built from
`demoKeys`. -/
theorem init_rebuild_witness :
    (FixedSet.Initialize ⟨0, default, []⟩ demoKeys demoSeed 2 = Except.ok demoSet ∧
      usedSet.Initialize demoKeys demoSeed 3 = Except.ok demoSet) ∧
    FixedSet.Initialize ⟨0, default, []⟩ demoKeys demoSeed 2
      = usedSet.Initialize demoKeys demoSeed 2 ∧
    demoSet = demoSet :=
  ⟨⟨demo_build, demo_rebuild⟩,
    (init_rebuild ⟨0, default, []⟩ usedSet demoKeys demoSeed).1 2,
    (init_rebuild ⟨0, default, []⟩ usedSet demoKeys demoSeed).2 2 3 demoSet demoSet
      demo_build demo_rebuild⟩

/-- C10. For a hash function with a positive modulus and a table modulus `m > 0`,
`FixedSet::ComputeCollisions` returns a vector of exactly `m` counts, entry `i` being the
number of positions of the key list whose key has index `hash(key) % m = i`, and the counts
sum to the length of the key list. -/
theorem computeCollisions_counts (elements : List Int) (h : HashFunction) (m : Nat)
    (hp : h.Positive) (hm : 0 < m) :
    ∃ counts, FixedSet.ComputeCollisions elements h m = Except.ok counts ∧
      counts.length = m ∧
      (∀ e, h.index m e = Except.ok ((h.slot m e : Nat) : Int)) ∧
      (∀ i, i < m →
        counts.getD i 0 = ((elements.countP (fun e => decide (h.slot m e = i)) : Nat) : Int)) ∧
      counts.sum = (elements.length : Int) := by
  obtain ⟨counts, h1, h2, h3, h4⟩ := computeCollisions_full elements h m hp hm
  exact ⟨counts, h1, h2, fun e => index_eq_slot h e hp hm, h3, h4⟩

/-- Witness of C10: four keys, two of them equal, counted into three buckets. -/
theorem computeCollisions_counts_witness :
    ∃ counts, FixedSet.ComputeCollisions [5, -7, 5, 12] ⟨3, 1, 11⟩ 3 = Except.ok counts ∧
      counts.length = 3 ∧
      (∀ e, HashFunction.index ⟨3, 1, 11⟩ 3 e
        = Except.ok ((HashFunction.slot ⟨3, 1, 11⟩ 3 e : Nat) : Int)) ∧
      (∀ i, i < 3 → counts.getD i 0 = ((List.countP
        (fun e => decide (HashFunction.slot ⟨3, 1, 11⟩ 3 e = i)) [5, -7, 5, 12] : Nat) : Int)) ∧
      counts.sum = (([5, -7, 5, 12] : List Int).length : Int) :=
  computeCollisions_counts [5, -7, 5, 12] ⟨3, 1, 11⟩ 3 ⟨by decide, by decide⟩ (by decide)


/-! Inner tables filled by `InternalHashTable::BuildHashTable`. -/

theorem getD_replicate_none (size i : Nat) :
    (List.replicate size (none : Option Int)).getD i none = none := by
  by_cases h : i < size <;> simp [List.getD_eq_getElem?_getD, List.getElem?_replicate, h]

/-- A table of `k * k` empty slots, filled by `InternalHashTable::BuildHashTable` with a
function that `InternalHashTable::HasCollisions` clears, is a perfect table of the bucket. -/
theorem perfect_of_build (t : InternalHashTable) (es : List Int)
    (hp : t.hash_function_.Positive)
    (hinfo : t.info_ = List.replicate (es.length * es.length) none)
    (hc : t.HasCollisions es = Except.ok false) :
    ∃ t2, t.BuildHashTable es = Except.ok t2 ∧ t2.PerfectFor es := by
  have hsize : t.info_.length = es.length * es.length := by rw [hinfo]; simp
  obtain ⟨t2, hb, hh2, hlen2, hslots⟩ := buildHashTable_spec t es hp hsize
  obtain ⟨verdict, hv, hiff⟩ := hasCollisions_spec t es hp
  rw [hc] at hv
  injection hv with hv
  have hinj : ∀ i, (t.hash_function_.keysAt es i).length ≤ 1 := by
    intro i
    by_contra hcon
    have hgt : 1 < (t.hash_function_.keysAt es i).length := by omega
    have hlt : i < es.length * es.length := by
      have hne : 0 < (t.hash_function_.keysAt es i).length := by omega
      obtain ⟨e, he⟩ := List.exists_mem_of_length_pos hne
      have hmem := (mem_keysAt _ es i e).mp he
      have hpos : 0 < es.length := List.length_pos_of_mem hmem.1
      have := slot_lt t.hash_function_ e (Nat.mul_pos hpos hpos)
      omega
    have : verdict = true := hiff.mpr ⟨i, hlt, hgt⟩
    rw [← hv] at this
    exact Bool.noConfusion this
  refine ⟨t2, hb, by rw [hh2]; exact hp, hlen2, by rw [hh2]; exact hinj, ?_⟩
  intro i hi
  rw [hslots i hi, hh2, hinfo, getD_replicate_none,
    getLast?_eq_head?_of_length_le_one _ (hinj i)]
  cases (t.hash_function_.keysAt es i).head? <;> rfl


/-! The order in which the loops try the candidates of a generator. -/

theorem candidate_zero (g : Generator) :
    g.candidate 0 = ⟨g.draws g.pos, g.draws (g.pos + 1), kPrime⟩ := rfl

theorem advance_one (g : Generator) : g.advance 1 = { g with pos := g.pos + 2 } := rfl

theorem candidate_advance (g : Generator) (k i : Nat) :
    (g.advance k).candidate i = g.candidate (k + i) := by
  simp only [Generator.candidate, Generator.advance, Nat.mul_add, Nat.add_assoc]

theorem advance_advance (g : Generator) (a b : Nat) :
    (g.advance a).advance b = g.advance (a + b) := by
  simp only [Generator.advance, Nat.mul_add, Nat.add_assoc]

theorem computeCollisions_candidate (es : List Int) (g : Generator) (i : Nat) :
    ∃ counts, FixedSet.ComputeCollisions es (g.candidate i) es.length = Except.ok counts ∧
      FixedSet.cost es (g.candidate i) = (counts.map (fun x => x * x)).sum := by
  have hm : 0 < es.length ∨ es = [] := by
    rcases Nat.eq_zero_or_pos es.length with h0 | hpos
    · exact Or.inr (List.length_eq_zero.mp h0)
    · exact Or.inl hpos
  obtain ⟨counts, hc, -, -⟩ :=
    computeCollisions_spec es (g.candidate i) es.length (kPrime_positive _ _) hm
  refine ⟨counts, hc, ?_⟩
  simp only [FixedSet.cost, hc, computeMemory_eq]

/-- The loop of `FixedSet::FindHashFunction` returns the first candidate of cost at most
`4 * n`, after exactly one round per candidate up to it. -/
theorem findHashFunction_first (es : List Int) : ∀ (j : Nat) (self : FixedSet) (g : Generator),
    FixedSet.cost es (g.candidate j) ≤ 4 * (es.length : Int) →
    (∀ i, i < j → FixedSet.cost es (g.candidate i) > 4 * (es.length : Int)) →
    (∀ extra, self.FindHashFunction es g (j + 1 + extra) = Except.ok
      (g.candidate j, { self with additional_memory := FixedSet.cost es (g.candidate j) },
        g.advance (j + 1))) ∧
    (∀ fuel, fuel ≤ j → self.FindHashFunction es g fuel = Except.error Fault.fuel) := by
  intro j
  induction j with
  | zero =>
    intro self g hj _
    obtain ⟨counts, hc, hcost⟩ := computeCollisions_candidate es g 0
    rw [hcost] at hj
    constructor
    · intro extra
      rw [show 0 + 1 + extra = extra + 1 by omega,
        findHashFunction_succ self es g extra counts hc, if_neg (by omega), hcost]
      rfl
    · intro fuel hf
      have : fuel = 0 := by omega
      subst this
      rfl
  | succ j ih =>
    intro self g hj hmin
    obtain ⟨counts, hc, hcost⟩ := computeCollisions_candidate es g 0
    have h0 := hmin 0 (by omega)
    rw [hcost] at h0
    have hj2 : FixedSet.cost es ((g.advance 1).candidate j) ≤ 4 * (es.length : Int) := by
      rw [candidate_advance, Nat.add_comm]; exact hj
    have hmin2 : ∀ i, i < j →
        FixedSet.cost es ((g.advance 1).candidate i) > 4 * (es.length : Int) := by
      intro i hi
      rw [candidate_advance, Nat.add_comm]
      exact hmin (i + 1) (by omega)
    obtain ⟨ih1, ih2⟩ :=
      ih { self with additional_memory := (counts.map (fun x => x * x)).sum } (g.advance 1)
        hj2 hmin2
    constructor
    · intro extra
      rw [show j + 1 + 1 + extra = (j + 1 + extra) + 1 by omega,
        findHashFunction_succ self es g _ counts hc, if_pos h0]
      have := ih1 extra
      rw [candidate_advance, advance_advance, Nat.add_comm 1 j, Nat.add_comm 1 (j + 1)] at this
      exact this
    · intro fuel hf
      cases fuel with
      | zero => rfl
      | succ fuel =>
        rw [findHashFunction_succ self es g fuel counts hc, if_pos h0]
        exact ih2 fuel (by omega)

/-- C12. For every key list of length `n` and every stream of candidates in which some
candidate has cost `sum(count_i^2) ≤ 4 * n`, `FixedSet::FindHashFunction` terminates: with
`j` the least index of such a candidate, every fuel above `j` returns candidate `j`, leaves
its cost in `additional_memory` and the generator right after candidate `j`; the `j`
candidates before it all have cost above `4 * n` and each takes one round, so no fuel up to
`j` suffices. -/
theorem outer_selection_first_acceptable (self : FixedSet) (es : List Int) (g : Generator)
    (hex : ∃ j, FixedSet.cost es (g.candidate j) ≤ 4 * (es.length : Int)) :
    ∃ j, FixedSet.cost es (g.candidate j) ≤ 4 * (es.length : Int) ∧
      (∀ i, i < j → FixedSet.cost es (g.candidate i) > 4 * (es.length : Int)) ∧
      (∀ extra, self.FindHashFunction es g (j + 1 + extra) = Except.ok
        (g.candidate j, { self with additional_memory := FixedSet.cost es (g.candidate j) },
          g.advance (j + 1))) ∧
      (∀ fuel, fuel ≤ j → self.FindHashFunction es g fuel = Except.error Fault.fuel) ∧
      (∀ i, ∃ counts,
        FixedSet.ComputeCollisions es (g.candidate i) es.length = Except.ok counts ∧
        FixedSet.cost es (g.candidate i) = (counts.map (fun x => x * x)).sum) := by
  classical
  have hj := Nat.find_spec hex
  have hmin : ∀ i, i < Nat.find hex →
      FixedSet.cost es (g.candidate i) > 4 * (es.length : Int) := by
    intro i hi
    have := Nat.find_min hex hi
    omega
  obtain ⟨h1, h2⟩ := findHashFunction_first es (Nat.find hex) self g hj hmin
  exact ⟨Nat.find hex, hj, hmin, h1, h2, fun i => computeCollisions_candidate es g i⟩

/-- Witness of C12: on `demoKeys` the candidate `(0, 0)` of `demoSeed` has cost `25 > 20` and
the next one, `(1073741824, 0)`, has cost `7`. -/
theorem outer_selection_first_acceptable_witness :
    FixedSet.cost demoKeys (demoSeed.candidate 0) = 25 ∧
    FixedSet.cost demoKeys (demoSeed.candidate 1) = 7 ∧
    FixedSet.FindHashFunction ⟨0, default, []⟩ demoKeys demoSeed 2 = Except.ok
      (⟨1073741824, 0, kPrime⟩, ⟨7, default, []⟩, ⟨demoSeed.draws, 4⟩) ∧
    ∃ j, FixedSet.cost demoKeys (demoSeed.candidate j) ≤ 4 * (demoKeys.length : Int) ∧
      (∀ i, i < j → FixedSet.cost demoKeys (demoSeed.candidate i) > 4 * (demoKeys.length : Int)) ∧
      (∀ extra, FixedSet.FindHashFunction ⟨0, default, []⟩ demoKeys demoSeed (j + 1 + extra)
        = Except.ok (demoSeed.candidate j,
          ⟨FixedSet.cost demoKeys (demoSeed.candidate j), default, []⟩,
          demoSeed.advance (j + 1))) ∧
      (∀ fuel, fuel ≤ j → FixedSet.FindHashFunction ⟨0, default, []⟩ demoKeys demoSeed fuel
        = Except.error Fault.fuel) ∧
      (∀ i, ∃ counts,
        FixedSet.ComputeCollisions demoKeys (demoSeed.candidate i) demoKeys.length
          = Except.ok counts ∧
        FixedSet.cost demoKeys (demoSeed.candidate i) = (counts.map (fun x => x * x)).sum) :=
  ⟨rfl, rfl, rfl,
    outer_selection_first_acceptable ⟨0, default, []⟩ demoKeys demoSeed ⟨1, by decide⟩⟩

/-! The first collision-free candidate of an inner table. -/

theorem any_gt_one_eq_not_all (counts : List Int) :
    counts.any (fun elem => decide (elem > 1)) = !counts.all (fun c => decide (c ≤ 1)) := by
  induction counts with
  | nil => rfl
  | cons c counts ih =>
    simp only [List.any_cons, List.all_cons, ih, Bool.not_and]
    congr 1
    by_cases hc : c ≤ 1
    · have : ¬ c > 1 := by omega
      simp [hc, this]
    · have : c > 1 := by omega
      simp [hc, this]

theorem computeCollisions_inner_candidate (es : List Int) (h : HashFunction)
    (hp : h.Positive) :
    ∃ counts, FixedSet.ComputeCollisions es h (es.length * es.length) = Except.ok counts := by
  have hm : 0 < es.length * es.length ∨ es = [] := by
    rcases Nat.eq_zero_or_pos es.length with h0 | hpos
    · exact Or.inr (List.length_eq_zero.mp h0)
    · exact Or.inl (Nat.mul_pos hpos hpos)
  obtain ⟨counts, hc, -, -⟩ := computeCollisions_spec es h _ hp hm
  exact ⟨counts, hc⟩

/-- The verdict of `InternalHashTable::HasCollisions` is the negation of `collisionFree`. -/
theorem hasCollisions_eq_not_collisionFree (h : HashFunction) (hp : h.Positive)
    (info : List (Option Int)) (es : List Int) :
    InternalHashTable.HasCollisions ⟨h, info⟩ es = Except.ok (!h.collisionFree es) := by
  obtain ⟨counts, hc⟩ := computeCollisions_inner_candidate es h hp
  simp only [InternalHashTable.HasCollisions, HashFunction.collisionFree, hc, bind, Except.bind,
    pure, Except.pure, any_gt_one_eq_not_all]

theorem length_vecResize (v : List (Option Int)) (size : Nat) :
    (vecResize v size).length = size := by
  simp only [vecResize, List.length_append, List.length_take, List.length_replicate]
  omega

/-- The resampling loop of `InternalHashTable::Initialize` stops at the first collision-free
candidate, after exactly one round per candidate up to it. -/
theorem resample_first (es : List Int) : ∀ (j : Nat) (self : InternalHashTable)
    (g : Generator),
    (g.candidate j).collisionFree es = true →
    (∀ i, i < j → (g.candidate i).collisionFree es = false) →
    (∀ extra, self.resample es g (j + 1 + extra) = Except.ok
      ({ self with hash_function_ := g.candidate j }, g.advance (j + 1))) ∧
    (∀ fuel, fuel ≤ j → self.resample es g fuel = Except.error Fault.fuel) := by
  intro j
  induction j with
  | zero =>
    intro self g hj _
    have hv := hasCollisions_eq_not_collisionFree (g.candidate 0) (kPrime_positive _ _)
      self.info_ es
    rw [hj] at hv
    constructor
    · intro extra
      rw [show 0 + 1 + extra = extra + 1 by omega, resample_succ self es g extra false hv]
      rfl
    · intro fuel hf
      have : fuel = 0 := by omega
      subst this
      rfl
  | succ j ih =>
    intro self g hj hmin
    have hv := hasCollisions_eq_not_collisionFree (g.candidate 0) (kPrime_positive _ _)
      self.info_ es
    rw [hmin 0 (by omega)] at hv
    have hj2 : ((g.advance 1).candidate j).collisionFree es = true := by
      rw [candidate_advance, Nat.add_comm]; exact hj
    have hmin2 : ∀ i, i < j → ((g.advance 1).candidate i).collisionFree es = false := by
      intro i hi
      rw [candidate_advance, Nat.add_comm]
      exact hmin (i + 1) (by omega)
    obtain ⟨ih1, ih2⟩ := ih { self with hash_function_ := g.candidate 0 } (g.advance 1) hj2 hmin2
    constructor
    · intro extra
      rw [show j + 1 + 1 + extra = (j + 1 + extra) + 1 by omega,
        resample_succ self es g _ true hv]
      have := ih1 extra
      rw [candidate_advance, advance_advance, Nat.add_comm 1 j, Nat.add_comm 1 (j + 1)] at this
      exact this
    · intro fuel hf
      cases fuel with
      | zero => rfl
      | succ fuel =>
        rw [resample_succ self es g fuel true hv]
        exact ih2 fuel (by omega)

/-- The function `InternalHashTable::Initialize` keeps the function that its loop accepts. -/
theorem init_inner_first (es : List Int) (j : Nat) (self : InternalHashTable) (g : Generator)
    (hj : (g.candidate j).collisionFree es = true)
    (hmin : ∀ i, i < j → (g.candidate i).collisionFree es = false) :
    (∀ extra, ∃ t, self.Initialize es g (j + 1 + extra) = Except.ok (t, g.advance (j + 1)) ∧
      t.hash_function_ = g.candidate j) ∧
    (∀ fuel, fuel ≤ j → self.Initialize es g fuel = Except.error Fault.fuel) := by
  obtain ⟨h1, h2⟩ := resample_first es j
    { self with info_ := vecResize self.info_ (es.length * es.length) } g hj hmin
  constructor
  · intro extra
    obtain ⟨t2, hb, hh, -, -⟩ := buildHashTable_spec
      ⟨g.candidate j, vecResize self.info_ (es.length * es.length)⟩ es
      (kPrime_positive _ _) (length_vecResize _ _)
    exact ⟨t2, init_of_resample self es g _ _ t2 _ (h1 extra) hb, hh⟩
  · intro fuel hf
    exact init_of_resample_error self es g fuel _ (h2 fuel hf)

/-- C13. For every bucket `B` of `k` keys and every stream of candidates that contains one
under which all slot counts modulo `k * k` are `≤ 1`, `InternalHashTable::Initialize`
terminates: with `j` the least index of such a candidate, every fuel above `j` returns a
table whose `hash_function_` is candidate `j` and the generator right after candidate `j`;
each of the `j` candidates before it gives some slot count `> 1` and takes one round, so no
fuel up to `j` suffices. -/
theorem inner_selection_first_collision_free (self : InternalHashTable) (B : List Int)
    (g : Generator) (hex : ∃ j, (g.candidate j).collisionFree B = true) :
    ∃ j,
      (∃ counts, FixedSet.ComputeCollisions B (g.candidate j) (B.length * B.length)
          = Except.ok counts ∧ ∀ c, c ∈ counts → c ≤ 1) ∧
      (∀ i, i < j → ∃ counts,
        FixedSet.ComputeCollisions B (g.candidate i) (B.length * B.length) = Except.ok counts ∧
        ∃ c, c ∈ counts ∧ c > 1) ∧
      (∀ extra, ∃ t, self.Initialize B g (j + 1 + extra) = Except.ok (t, g.advance (j + 1)) ∧
        t.hash_function_ = g.candidate j) ∧
      (∀ fuel, fuel ≤ j → self.Initialize B g fuel = Except.error Fault.fuel) := by
  classical
  have hj := Nat.find_spec hex
  have hmin : ∀ i, i < Nat.find hex → (g.candidate i).collisionFree B = false := by
    intro i hi
    have := Nat.find_min hex hi
    simpa using this
  obtain ⟨h1, h2⟩ := init_inner_first B (Nat.find hex) self g hj hmin
  refine ⟨Nat.find hex, ?_, ?_, h1, h2⟩
  · obtain ⟨counts, hc⟩ := computeCollisions_inner_candidate B (g.candidate (Nat.find hex))
      (kPrime_positive _ _)
    refine ⟨counts, hc, ?_⟩
    have := hj
    simp only [HashFunction.collisionFree, hc, List.all_eq_true, decide_eq_true_eq] at this
    exact this
  · intro i hi
    obtain ⟨counts, hc⟩ := computeCollisions_inner_candidate B (g.candidate i)
      (kPrime_positive _ _)
    refine ⟨counts, hc, ?_⟩
    have := hmin i hi
    simp only [HashFunction.collisionFree, hc] at this
    have hnot : ¬ (counts.all (fun c => decide (c ≤ 1)) = true) := by simp [this]
    rw [List.all_eq_true] at hnot
    push_neg at hnot
    obtain ⟨c, hcm, hcc⟩ := hnot
    exact ⟨c, hcm, by simpa using hcc⟩

/-- Witness of C13: on the bucket `[2, 5]` the candidate `(0, 3)` sends both keys to slot
`3` and the next one, `(1, 0)`, is collision-free. -/
theorem inner_selection_first_collision_free_witness :
    HashFunction.collisionFree ⟨0, 3, kPrime⟩ [2, 5] = false ∧
    HashFunction.collisionFree ⟨1, 0, kPrime⟩ [2, 5] = true ∧
    InternalHashTable.Initialize {} [2, 5] ⟨demoSeed.draws, 6⟩ 2
      = Except.ok (⟨⟨1, 0, kPrime⟩, [none, some 5, some 2, none]⟩, ⟨demoSeed.draws, 10⟩) ∧
    ∃ j,
      (∃ counts, FixedSet.ComputeCollisions [2, 5] (Generator.candidate ⟨demoSeed.draws, 6⟩ j)
          (2 * 2) = Except.ok counts ∧ ∀ c, c ∈ counts → c ≤ 1) ∧
      (∀ i, i < j → ∃ counts,
        FixedSet.ComputeCollisions [2, 5] (Generator.candidate ⟨demoSeed.draws, 6⟩ i) (2 * 2)
          = Except.ok counts ∧ ∃ c, c ∈ counts ∧ c > 1) ∧
      (∀ extra, ∃ t, InternalHashTable.Initialize {} [2, 5] ⟨demoSeed.draws, 6⟩ (j + 1 + extra)
          = Except.ok (t, Generator.advance ⟨demoSeed.draws, 6⟩ (j + 1)) ∧
        t.hash_function_ = Generator.candidate ⟨demoSeed.draws, 6⟩ j) ∧
      (∀ fuel, fuel ≤ j → InternalHashTable.Initialize {} [2, 5] ⟨demoSeed.draws, 6⟩ fuel
        = Except.error Fault.fuel) :=
  ⟨rfl, rfl, rfl,
    inner_selection_first_collision_free {} [2, 5] ⟨demoSeed.draws, 6⟩ ⟨1, rfl⟩⟩

/-! The buckets as a partition of the key list. -/

theorem flatten_modify_snoc (e : Int) : ∀ (l : List (List Int)) (i : Nat), i < l.length →
    (List.modify (fun backet => backet ++ [e]) i l).flatten.Perm (e :: l.flatten) := by
  intro l
  induction l with
  | nil => intro i hi; simp at hi
  | cons a l ih =>
    intro i hi
    cases i with
    | zero =>
      simp only [List.modify, List.modifyHead, List.modifyTailIdx, List.flatten_cons,
        List.append_assoc, List.singleton_append]
      exact List.perm_middle
    | succ i =>
      have := ih i (by simpa using hi)
      simp only [List.modify_succ_cons, List.flatten_cons]
      exact (List.Perm.append_left a this).trans List.perm_middle

theorem flatten_foldl_modify_snoc (pos : Int → Nat) : ∀ (es : List Int)
    (acc : List (List Int)), (∀ e, e ∈ es → pos e < acc.length) →
    (es.foldl (fun acc e => List.modify (fun backet => backet ++ [e]) (pos e) acc)
      acc).flatten.Perm (acc.flatten ++ es) := by
  intro es
  induction es with
  | nil => intro acc _; simp
  | cons e es ih =>
    intro acc hpos
    simp only [List.foldl]
    have h1 := ih (List.modify (fun backet => backet ++ [e]) (pos e) acc) (by
      intro x hx
      simpa using hpos x (List.mem_cons_of_mem _ hx))
    have h2 := flatten_modify_snoc e acc (pos e) (hpos e (List.mem_cons_self _ _))
    exact h1.trans ((List.Perm.append_right es h2).trans List.perm_middle.symm)

/-- The vector that `FixedSet::BuildBackets` returns on a non-empty key list. -/
theorem buildBackets_eq_foldl (self : FixedSet) (es : List Int)
    (hp : self.hash_function_.Positive) (hpos : 0 < es.length) :
    self.BuildBackets es = Except.ok
      (es.foldl (fun acc e => List.modify (fun backet => backet ++ [e])
        (self.hash_function_.slot es.length e) acc) (List.replicate es.length [])) :=
  foldlM_modify (self.hash_function_.slot es.length) (fun e backet => backet ++ [e])
    _ es.length (fun acc e hacc => buildBackets_body _ hp hpos acc e hacc) es _ (by simp)

/-- C14. For every non-empty key list `E` of length `n` and every outer hash function (of
positive modulus), `FixedSet::BuildBackets` returns exactly `n` buckets; bucket `i` is the
sub-list of `E`, in the order of `E` and with multiplicity, of the keys whose index
`outerHash(x) % n` is `i`; the buckets together are a permutation of `E`; and the length of
bucket `i` is entry `i` of `ComputeCollisions(E, outerHash, n)`. -/
theorem buildBackets_partition (self : FixedSet) (E : List Int)
    (hp : self.hash_function_.Positive) (hne : E ≠ []) :
    ∃ backets, self.BuildBackets E = Except.ok backets ∧
      backets.length = E.length ∧
      (∀ x, self.hash_function_.index E.length x
        = Except.ok ((self.hash_function_.slot E.length x : Nat) : Int)) ∧
      (∀ i, i < E.length → backets.getD i []
        = E.filter (fun x => decide (self.hash_function_.slot E.length x = i))) ∧
      backets.flatten.Perm E ∧
      ∃ counts, FixedSet.ComputeCollisions E self.hash_function_ E.length = Except.ok counts ∧
        ∀ i, i < E.length → (((backets.getD i []).length : Nat) : Int) = counts.getD i 0 := by
  have hpos : 0 < E.length := List.length_pos.mpr hne
  obtain ⟨counts, hc, -, hcget⟩ :=
    computeCollisions_spec E self.hash_function_ E.length hp (Or.inl hpos)
  have hget : ∀ i, i < E.length →
      (E.foldl (fun acc e => List.modify (fun backet => backet ++ [e])
        (self.hash_function_.slot E.length e) acc) (List.replicate E.length [])).getD i []
        = E.filter (fun x => decide (self.hash_function_.slot E.length x = i)) := by
    intro i hi
    rw [getD_foldl_modify (self.hash_function_.slot E.length) (fun e backet => backet ++ [e])
      [] i E _ (by simpa using hi), foldl_snoc_eq]
    simp [List.getD_eq_getElem?_getD, List.getElem?_replicate, hi]
  refine ⟨_, buildBackets_eq_foldl self E hp hpos, ?_, ?_, hget, ?_, counts, hc, ?_⟩
  · rw [length_foldl_modify]; simp
  · intro x; exact index_eq_slot _ x hp hpos
  · have := flatten_foldl_modify_snoc (self.hash_function_.slot E.length) E
      (List.replicate E.length []) (by intro e _; simpa using slot_lt _ e hpos)
    have hnil : (List.replicate E.length ([] : List Int)).flatten = [] := by
      induction E.length with
      | zero => rfl
      | succ n ih => simp [List.replicate_succ]
    rw [hnil, List.nil_append] at this
    exact this
  · intro i hi
    rw [hget i hi, hcget i hi]

/-- Witness of C14: the keys `demoKeys` under `(1073741824, 0, kPrime)`, whose buckets are
`[3]`, `[2, 5]`, `[4]`, `[]`, `[1]`. -/
theorem buildBackets_partition_witness :
    FixedSet.BuildBackets ⟨0, ⟨1073741824, 0, kPrime⟩, []⟩ demoKeys
      = Except.ok [[3], [2, 5], [4], [], [1]] ∧
    ∃ backets, FixedSet.BuildBackets ⟨0, ⟨1073741824, 0, kPrime⟩, []⟩ demoKeys
        = Except.ok backets ∧
      backets.length = demoKeys.length ∧
      (∀ x, HashFunction.index ⟨1073741824, 0, kPrime⟩ demoKeys.length x
        = Except.ok ((HashFunction.slot ⟨1073741824, 0, kPrime⟩ demoKeys.length x : Nat) : Int)) ∧
      (∀ i, i < demoKeys.length → backets.getD i [] = demoKeys.filter
        (fun x => decide (HashFunction.slot ⟨1073741824, 0, kPrime⟩ demoKeys.length x = i))) ∧
      backets.flatten.Perm demoKeys ∧
      ∃ counts, FixedSet.ComputeCollisions demoKeys ⟨1073741824, 0, kPrime⟩ demoKeys.length
          = Except.ok counts ∧
        ∀ i, i < demoKeys.length →
          (((backets.getD i []).length : Nat) : Int) = counts.getD i 0 :=
  ⟨rfl, buildBackets_partition ⟨0, ⟨1073741824, 0, kPrime⟩, []⟩ demoKeys
    (kPrime_positive _ _) (by decide)⟩

/-! The shape of the outer table, and the inner table of an empty bucket. -/

/-- C15 (counterexample). The build of the five keys `demoKeys` owns five inner tables, and
the modulus of its stored outer hash function is `2147483647`, not `5`. -/
theorem outer_modulus_is_not_key_count :
    FixedSet.Initialize ⟨0, default, []⟩ demoKeys demoSeed 2 = Except.ok demoSet ∧
    0 < demoKeys.length ∧
    demoSet.hash_tables_.length = demoKeys.length ∧
    demoSet.hash_function_.modulus = 2147483647 ∧
    demoSet.hash_function_.modulus ≠ (demoKeys.length : Int) :=
  ⟨demo_build, by decide, rfl, rfl, by decide⟩

/-- C15 (amended). After `FixedSet::Initialize` terminates on a key list of `n > 0` keys, the
set owns exactly `n` inner tables, table `i` being the perfect table of bucket `i`, and the
modulus of its stored outer hash function equals `kPrime = 2147483647`; the bucket index of
a value is the value of that function reduced modulo `n`, a number below `n`. -/
theorem outer_table_shape (self : FixedSet) (es : List Int) (seed : Generator) (fuel : Nat)
    (st : FixedSet) (h : self.Initialize es seed fuel = Except.ok st) (hn : 0 < es.length) :
    st.hash_tables_.length = es.length ∧
    (∀ i, i < es.length →
      (st.hash_tables_.getD i default).PerfectFor (st.hash_function_.bucket es i)) ∧
    st.hash_function_.modulus = kPrime ∧ kPrime = 2147483647 ∧
    (∀ v, st.hash_function_.index es.length v
        = Except.ok ((st.hash_function_.slot es.length v : Nat) : Int) ∧
      st.hash_function_.slot es.length v < es.length) := by
  obtain ⟨hmod, hlen, hpf, -⟩ := init_spec self es seed fuel st h
  have hp : st.hash_function_.Positive := by
    have := kPrime_positive st.hash_function_.arg_a st.hash_function_.arg_b
    rw [← hmod] at this
    exact this
  exact ⟨hlen, hpf, hmod, rfl, fun v => ⟨index_eq_slot _ v hp hn, slot_lt _ v hn⟩⟩

/-- Witness of C15 (amended): the build of `demoKeys`. -/
theorem outer_table_shape_witness :
    demoSet.hash_tables_.length = demoKeys.length ∧
    (∀ i, i < demoKeys.length →
      (demoSet.hash_tables_.getD i default).PerfectFor (demoSet.hash_function_.bucket demoKeys i)) ∧
    demoSet.hash_function_.modulus = kPrime ∧ kPrime = 2147483647 ∧
    (∀ v, demoSet.hash_function_.index demoKeys.length v
        = Except.ok ((demoSet.hash_function_.slot demoKeys.length v : Nat) : Int) ∧
      demoSet.hash_function_.slot demoKeys.length v < demoKeys.length) :=
  outer_table_shape ⟨0, default, []⟩ demoKeys demoSeed 2 demoSet demo_build (by decide)

/-- C16 (counterexample). On the empty bucket `InternalHashTable::Initialize` draws a
candidate: on `demoSeed` the generator moves from position `0` to position `2`, and the
hash function of the table is the candidate `(0, 0, kPrime)`, not the default `(0, 0, 1)`. -/
theorem empty_bucket_draws_a_candidate :
    InternalHashTable.Initialize {} [] demoSeed 1
      = Except.ok (⟨⟨0, 0, kPrime⟩, []⟩, ⟨demoSeed.draws, 2⟩) ∧
    demoSeed.pos = 0 ∧
    (⟨0, 0, kPrime⟩ : HashFunction) ≠ default ∧
    InternalHashTable.Initialize {} [] demoSeed 0 = Except.error Fault.fuel :=
  ⟨rfl, rfl, by decide, rfl⟩

/-- C16 (amended). On an empty bucket `InternalHashTable::Initialize` leaves a table with
zero slots, but it runs its resampling loop once: it draws exactly one candidate (two
values) from the generator, accepts it, since `HasCollisions` on the empty bucket is false,
and keeps it as the hash function of the table (modulus `kPrime`), so that the generator
handed to the next bucket is one candidate further; `Contains` on the table returns false
for every value. -/
theorem init_inner_empty_bucket (self : InternalHashTable) (g : Generator) (fuel : Nat)
    (v : Int) :
    InternalHashTable.HasCollisions ⟨g.candidate 0, []⟩ [] = Except.ok false ∧
    self.Initialize [] g (fuel + 1) = Except.ok (⟨g.candidate 0, []⟩, g.advance 1) ∧
    (g.candidate 0).modulus = kPrime ∧ (g.advance 1).pos = g.pos + 2 ∧
    InternalHashTable.Contains ⟨g.candidate 0, []⟩ v = Except.ok false := by
  refine ⟨rfl, ?_, rfl, rfl, rfl⟩
  have hres : vecResize self.info_ (([] : List Int).length * ([] : List Int).length) = [] := by
    simp [vecResize]
  apply init_of_resample self [] g (fuel + 1) ⟨g.candidate 0, []⟩
  · rw [hres]
    rfl
  · rfl

/-! Absence of remainders by zero and of indices out of range. -/

theorem safe_ok {α : Type} (a : α) : Safe (Except.ok a : Except Fault α) :=
  ⟨fun h => Except.noConfusion h, fun h => Except.noConfusion h⟩

theorem safe_fuel {α : Type} : Safe (Except.error Fault.fuel : Except Fault α) :=
  ⟨fun h => by injection h with h; exact Fault.noConfusion h,
    fun h => by injection h with h; exact Fault.noConfusion h⟩

theorem safe_cases {α : Type} (r : Except Fault α) (h : Safe r) :
    (∃ a, r = Except.ok a) ∨ r = Except.error Fault.fuel := by
  cases r with
  | ok a => exact Or.inl ⟨a, rfl⟩
  | error e =>
    cases e with
    | fuel => exact Or.inr rfl
    | divZero => exact absurd rfl h.1
    | outOfRange => exact absurd rfl h.2

theorem findHashFunction_safe (es : List Int) : ∀ (fuel : Nat) (self : FixedSet)
    (g : Generator), Safe (self.FindHashFunction es g fuel) := by
  intro fuel
  induction fuel with
  | zero => intro self g; exact safe_fuel
  | succ fuel ih =>
    intro self g
    obtain ⟨counts, hc, -⟩ := computeCollisions_candidate es g 0
    rw [findHashFunction_succ self es g fuel counts hc]
    split
    · exact ih _ _
    · exact safe_ok _

theorem resample_safe (es : List Int) : ∀ (fuel : Nat) (self : InternalHashTable)
    (g : Generator), Safe (self.resample es g fuel) := by
  intro fuel
  induction fuel with
  | zero => intro self g; exact safe_fuel
  | succ fuel ih =>
    intro self g
    rw [resample_succ self es g fuel _
      (hasCollisions_eq_not_collisionFree (g.candidate 0) (kPrime_positive _ _) self.info_ es)]
    split
    · exact ih _ _
    · exact safe_ok _

theorem init_inner_safe (self : InternalHashTable) (es : List Int) (g : Generator)
    (fuel : Nat) : Safe (self.Initialize es g fuel) := by
  rcases safe_cases _ (resample_safe es fuel
    { self with info_ := vecResize self.info_ (es.length * es.length) } g) with ⟨r, hr⟩ | hr
  · obtain ⟨t, g2⟩ := r
    obtain ⟨hinfo, hmod, -⟩ := resample_spec es fuel _ g t g2 hr
    have hp : t.hash_function_.Positive := by
      have := kPrime_positive t.hash_function_.arg_a t.hash_function_.arg_b
      rw [← hmod] at this
      exact this
    obtain ⟨t2, hb, -⟩ := buildHashTable_spec t es hp (by rw [hinfo]; exact length_vecResize _ _)
    rw [init_of_resample self es g fuel t t2 g2 hr hb]
    exact safe_ok _
  · rw [init_of_resample_error self es g fuel _ hr]
    exact safe_fuel

theorem buildLoop_safe (backets : List (List Int)) (fuel : Nat) : ∀ (remaining : Nat)
    (self : FixedSet) (g : Generator) (index : Nat), index + remaining ≤ backets.length →
    Safe (FixedSet.buildLoop backets fuel self g index remaining) := by
  intro remaining
  induction remaining with
  | zero => intro self g index _; exact safe_ok _
  | succ remaining ih =>
    intro self g index hle
    have hb : backets.get? index = some (backets.getD index []) :=
      getD_eq_get? _ _ [] (by omega)
    rcases safe_cases _ (init_inner_safe {} (backets.getD index []) g fuel) with ⟨r, hr⟩ | hr
    · obtain ⟨table, g2⟩ := r
      rw [buildLoop_succ backets fuel self g index remaining _ table g2 hb hr]
      exact ih _ _ _ (by omega)
    · rw [buildLoop_error backets fuel self g index remaining _ _ hb hr]
      exact safe_fuel

theorem init_safe (self : FixedSet) (es : List Int) (seed : Generator) (fuel : Nat) :
    Safe (self.Initialize es seed fuel) := by
  rw [init_eq]
  rcases safe_cases _ (findHashFunction_safe es fuel ⟨0, default, []⟩ seed) with ⟨r, hr⟩ | hr
  · obtain ⟨h, s, g⟩ := r
    rw [hr]
    simp only
    obtain ⟨hmod, -⟩ := findHashFunction_spec es fuel _ seed h s g hr
    have hp : h.Positive := by
      have := kPrime_positive h.arg_a h.arg_b
      rw [← hmod] at this
      exact this
    obtain ⟨backets, hb, hlen, -⟩ :=
      buildBackets_spec ⟨s.additional_memory, h, []⟩ es hp
    rw [buildHashTables_eq _ es g fuel backets hb]
    rcases safe_cases _ (buildLoop_safe backets fuel es.length
      ⟨s.additional_memory, h, []⟩ g 0 (by omega)) with ⟨r2, hr2⟩ | hr2
    · rw [hr2]
      exact safe_ok _
    · rw [hr2]
      exact safe_fuel
  · rw [hr]
    exact safe_fuel

/-- The function `InternalHashTable::Contains` returns for every table whose hash function
has a positive modulus, whatever its slots hold. -/
theorem inner_contains_returns (t : InternalHashTable) (hp : t.hash_function_.Positive)
    (v : Int) : ∃ b, t.Contains v = Except.ok b := by
  cases hinfo : t.info_ with
  | nil => exact ⟨false, by simp [InternalHashTable.Contains, hinfo]; rfl⟩
  | cons a l =>
    have hm : 0 < t.info_.length := by rw [hinfo]; simp
    have hlt := slot_lt t.hash_function_ v hm
    have hget := vecGet_nat t.info_ _ _ (getD_eq_get? t.info_ _ none hlt)
    have hne : t.info_.isEmpty = false := by rw [hinfo]; rfl
    simp only [InternalHashTable.Contains, hne, Bool.false_eq_true, if_false,
      apply_eq_value _ v hp, remSize_value _ v hp hm, hget, bind, Except.bind]
    cases t.info_.getD (t.hash_function_.slot t.info_.length v) none with
    | none => exact ⟨false, rfl⟩
    | some w => exact ⟨decide (w = v), rfl⟩

/-- The function `FixedSet::Contains` returns after a terminated `FixedSet::Initialize`. -/
theorem contains_returns (self : FixedSet) (es : List Int) (seed : Generator) (fuel : Nat)
    (st : FixedSet) (h : self.Initialize es seed fuel = Except.ok st) (v : Int) :
    ∃ b, st.Contains v = Except.ok b := by
  obtain ⟨hmod, hlen, hpf, -⟩ := init_spec self es seed fuel st h
  have hp : st.hash_function_.Positive := by
    have := kPrime_positive st.hash_function_.arg_a st.hash_function_.arg_b
    rw [← hmod] at this
    exact this
  cases htab : st.hash_tables_ with
  | nil => exact ⟨false, by simp [FixedSet.Contains, htab]; rfl⟩
  | cons a l =>
    have hm : 0 < st.hash_tables_.length := by rw [htab]; simp
    have hlt := slot_lt st.hash_function_ v hm
    have hget := vecGet_nat st.hash_tables_ _ _ (getD_eq_get? st.hash_tables_ _ default hlt)
    have hne : st.hash_tables_.isEmpty = false := by rw [htab]; rfl
    have hpt := (hpf _ (by rw [← hlen]; exact hlt)).positive
    obtain ⟨b, hb⟩ := inner_contains_returns _ hpt v
    refine ⟨b, ?_⟩
    simp only [FixedSet.Contains, hne, Bool.false_eq_true, if_false,
      apply_eq_value _ v hp, remSize_value _ v hp hm, hget, bind, Except.bind]
    exact hb

theorem init_inner_modulus (self : InternalHashTable) (es : List Int) (g : Generator)
    (fuel : Nat) (t : InternalHashTable) (g2 : Generator)
    (h : self.Initialize es g fuel = Except.ok (t, g2)) :
    t.hash_function_.modulus = kPrime := by
  simp only [InternalHashTable.Initialize, bind, Except.bind] at h
  split at h
  · simp at h
  · rename_i r hr
    obtain ⟨t1, g1⟩ := r
    obtain ⟨hinfo, hmod, -⟩ := resample_spec es fuel _ g t1 g1 hr
    have hp : t1.hash_function_.Positive := by
      have := kPrime_positive t1.hash_function_.arg_a t1.hash_function_.arg_b
      rw [← hmod] at this
      exact this
    obtain ⟨t2, hb, hh, -, -⟩ :=
      buildHashTable_spec t1 es hp (by rw [hinfo]; exact length_vecResize _ _)
    simp only [hb, pure, Except.pure] at h
    injection h with h
    injection h with h1 h2
    subst h1
    rw [hh]
    exact hmod

/-- C17. For every key list, every random stream and every fuel, `FixedSet::Initialize` and
`InternalHashTable::Initialize` (from any earlier state) meet no remainder by zero and no
index outside its vector, whether they return or run out of fuel; and `FixedSet::Contains`
and `InternalHashTable::Contains` return, without such a fault, on every set and table that
these functions have built and on the sets and tables that were never built. -/
theorem no_division_by_zero_no_out_of_range (self : FixedSet) (es : List Int)
    (seed : Generator) (fuel : Nat) (table : InternalHashTable) (B : List Int)
    (g : Generator) (v : Int) :
    Safe (self.Initialize es seed fuel) ∧
    (∀ st, self.Initialize es seed fuel = Except.ok st → ∃ b, st.Contains v = Except.ok b) ∧
    FixedSet.Contains { self with hash_tables_ := [] } v = Except.ok false ∧
    Safe (table.Initialize B g fuel) ∧
    (∀ t g2, table.Initialize B g fuel = Except.ok (t, g2) →
      ∃ b, t.Contains v = Except.ok b) ∧
    InternalHashTable.Contains {} v = Except.ok false := by
  refine ⟨init_safe self es seed fuel,
    fun st h => contains_returns self es seed fuel st h v, rfl,
    init_inner_safe table B g fuel, ?_, rfl⟩
  intro t g2 h
  have hmod := init_inner_modulus table B g fuel t g2 h
  have hp : t.hash_function_.Positive := by
    have := kPrime_positive t.hash_function_.arg_a t.hash_function_.arg_b
    rw [← hmod] at this
    exact this
  exact inner_contains_returns t hp v

/-- Witness of C17: the build of `demoKeys`, which has an empty bucket, a query of the value
`-5`, and a rebuild of the inner table of `usedSet` for the bucket `[2, 5]`. -/
theorem no_division_by_zero_no_out_of_range_witness :
    FixedSet.Initialize ⟨0, default, []⟩ demoKeys demoSeed 2 = Except.ok demoSet ∧
    (∃ b, demoSet.Contains (-5) = Except.ok b) ∧
    InternalHashTable.Initialize ⟨⟨1073741824, 0, 2147483647⟩, [some 42]⟩ [2, 5]
        ⟨demoSeed.draws, 6⟩ 2
      = Except.ok (⟨⟨1, 0, kPrime⟩, [some 42, some 5, some 2, none]⟩, ⟨demoSeed.draws, 10⟩) ∧
    (∃ b, InternalHashTable.Contains ⟨⟨1, 0, kPrime⟩, [some 42, some 5, some 2, none]⟩ (-5)
      = Except.ok b) :=
  ⟨demo_build,
    (no_division_by_zero_no_out_of_range ⟨0, default, []⟩ demoKeys demoSeed 2
      ⟨⟨1073741824, 0, 2147483647⟩, [some 42]⟩ [2, 5] ⟨demoSeed.draws, 6⟩ (-5)).2.1
      demoSet demo_build,
    rfl,
    (no_division_by_zero_no_out_of_range ⟨0, default, []⟩ demoKeys demoSeed 2
      ⟨⟨1073741824, 0, 2147483647⟩, [some 42]⟩ [2, 5] ⟨demoSeed.draws, 6⟩ (-5)).2.2.2.2.1
      _ _ rfl⟩

/-! Key lists with a repeated key. -/

/-- A bucket that holds a key twice has a collision under every hash function of positive
modulus. -/
theorem hasCollisions_of_duplicate (h : HashFunction) (hp : h.Positive)
    (info : List (Option Int)) (B : List Int) (x : Int) (hx : 2 ≤ B.count x) :
    InternalHashTable.HasCollisions ⟨h, info⟩ B = Except.ok true := by
  obtain ⟨verdict, hv, hiff⟩ := hasCollisions_spec ⟨h, info⟩ B hp
  have hpos : 0 < B.length := by
    have := List.count_le_length x B
    omega
  have : verdict = true := by
    apply hiff.mpr
    refine ⟨h.slot (B.length * B.length) x, slot_lt _ _ (Nat.mul_pos hpos hpos), ?_⟩
    have hcount : (h.keysAt B (h.slot (B.length * B.length) x)).count x = B.count x := by
      unfold HashFunction.keysAt
      exact List.count_filter (by simp)
    have := List.count_le_length x (h.keysAt B (h.slot (B.length * B.length) x))
    show 1 < (h.keysAt B (h.slot (B.length * B.length) x)).length
    omega
  rw [hv, this]

theorem bucket_count (h : HashFunction) (es : List Int) (x : Int) :
    (h.bucket es (h.slot es.length x)).count x = es.count x := by
  unfold HashFunction.bucket
  exact List.count_filter (by simp)

/-- The resampling loop of `InternalHashTable::Initialize` on a bucket that holds a key twice
rejects every candidate: it uses up any fuel. -/
theorem resample_of_duplicate (B : List Int) (x : Int) (hx : 2 ≤ B.count x) :
    ∀ (fuel : Nat) (self : InternalHashTable) (g : Generator),
      self.resample B g fuel = Except.error Fault.fuel := by
  intro fuel
  induction fuel with
  | zero => intro self g; rfl
  | succ fuel ih =>
    intro self g
    rw [resample_succ self B g fuel true
      (hasCollisions_of_duplicate _ (kPrime_positive _ _) _ B x hx)]
    exact ih _ _

/-- The build of a key list that holds a key twice does not return. -/
theorem init_of_duplicate (self : FixedSet) (es : List Int) (x : Int) (hx : 2 ≤ es.count x)
    (seed : Generator) (fuel : Nat) :
    self.Initialize es seed fuel = Except.error Fault.fuel := by
  rcases safe_cases _ (init_safe self es seed fuel) with ⟨st, hst⟩ | hfuel
  · exfalso
    obtain ⟨-, -, hpf, -⟩ := init_spec self es seed fuel st hst
    have hpos : 0 < es.length := by
      have := List.count_le_length x es
      omega
    have hperf := hpf _ (slot_lt st.hash_function_ x hpos)
    have hb := bucket_count st.hash_function_ es x
    have hinj := hperf.injective ((st.hash_tables_.getD (st.hash_function_.slot es.length x)
      default).hash_function_.slot
        ((st.hash_function_.bucket es (st.hash_function_.slot es.length x)).length *
          (st.hash_function_.bucket es (st.hash_function_.slot es.length x)).length) x)
    have hcount : (HashFunction.keysAt
        (st.hash_tables_.getD (st.hash_function_.slot es.length x) default).hash_function_
        (st.hash_function_.bucket es (st.hash_function_.slot es.length x))
        ((st.hash_tables_.getD (st.hash_function_.slot es.length x)
          default).hash_function_.slot
          ((st.hash_function_.bucket es (st.hash_function_.slot es.length x)).length *
            (st.hash_function_.bucket es (st.hash_function_.slot es.length x)).length) x)).count x
        = (st.hash_function_.bucket es (st.hash_function_.slot es.length x)).count x := by
      unfold HashFunction.keysAt
      exact List.count_filter (by simp)
    have hle := List.count_le_length x (HashFunction.keysAt
        (st.hash_tables_.getD (st.hash_function_.slot es.length x) default).hash_function_
        (st.hash_function_.bucket es (st.hash_function_.slot es.length x))
        ((st.hash_tables_.getD (st.hash_function_.slot es.length x)
          default).hash_function_.slot
          ((st.hash_function_.bucket es (st.hash_function_.slot es.length x)).length *
            (st.hash_function_.bucket es (st.hash_function_.slot es.length x)).length) x))
    omega
  · exact hfuel

/-- C18. For every key list in which a value `x` occurs at two positions: under every outer
hash function the bucket of `x` holds `x` twice, `InternalHashTable::HasCollisions` returns
true on it for every inner hash function (of positive modulus), `InternalHashTable::Initialize`
on that bucket is out of fuel for every fuel, never accepting a candidate, and for every
random stream and every fuel `FixedSet::Initialize` is out of fuel: it neither rejects the
input nor terminates. -/
theorem duplicate_keys_diverge (es : List Int) (x : Int) (hx : 2 ≤ es.count x) :
    (∀ outer : HashFunction, 2 ≤ (outer.bucket es (outer.slot es.length x)).count x) ∧
    (∀ (outer inner : HashFunction) (info : List (Option Int)), inner.Positive →
      InternalHashTable.HasCollisions ⟨inner, info⟩ (outer.bucket es (outer.slot es.length x))
        = Except.ok true) ∧
    (∀ (outer : HashFunction) (table : InternalHashTable) (g : Generator) (fuel : Nat),
      table.Initialize (outer.bucket es (outer.slot es.length x)) g fuel
        = Except.error Fault.fuel) ∧
    (∀ (self : FixedSet) (seed : Generator) (fuel : Nat),
      self.Initialize es seed fuel = Except.error Fault.fuel) := by
  have hb : ∀ outer : HashFunction, 2 ≤ (outer.bucket es (outer.slot es.length x)).count x := by
    intro outer
    rw [bucket_count]
    exact hx
  refine ⟨hb, ?_, ?_, ?_⟩
  · intro outer inner info hp
    exact hasCollisions_of_duplicate inner hp info _ x (hb outer)
  · intro outer table g fuel
    exact init_of_resample_error table _ g fuel _
      (resample_of_duplicate _ x (hb outer) fuel _ g)
  · intro self seed fuel
    exact init_of_duplicate self es x hx seed fuel

/-- Witness of C18: the key list `[7, 3, 7]` on `demoSeed`, out of fuel after 50 rounds per
loop. -/
theorem duplicate_keys_diverge_witness :
    2 ≤ ([7, 3, 7] : List Int).count 7 ∧
    FixedSet.Initialize ⟨0, default, []⟩ [7, 3, 7] demoSeed 50 = Except.error Fault.fuel :=
  ⟨by decide, (duplicate_keys_diverge [7, 3, 7] 7 (by decide)).2.2.2 ⟨0, default, []⟩ demoSeed 50⟩

/-! Inner tables built over earlier slots. -/

theorem injective_of_no_collision (t : InternalHashTable) (es : List Int)
    (hp : t.hash_function_.Positive) (hc : t.HasCollisions es = Except.ok false) :
    ∀ i, (t.hash_function_.keysAt es i).length ≤ 1 := by
  obtain ⟨verdict, hv, hiff⟩ := hasCollisions_spec t es hp
  rw [hc] at hv
  injection hv with hv
  intro i
  by_contra hcon
  have hgt : 1 < (t.hash_function_.keysAt es i).length := by omega
  have hlt : i < es.length * es.length := by
    have hne : 0 < (t.hash_function_.keysAt es i).length := by omega
    obtain ⟨e, he⟩ := List.exists_mem_of_length_pos hne
    have hmem := (mem_keysAt _ es i e).mp he
    have hpos : 0 < es.length := List.length_pos_of_mem hmem.1
    have := slot_lt t.hash_function_ e (Nat.mul_pos hpos hpos)
    omega
  have : verdict = true := hiff.mpr ⟨i, hlt, hgt⟩
  rw [← hv] at this
  exact Bool.noConfusion this

/-- A table of `k * k` slots, filled by `InternalHashTable::BuildHashTable` with a function
that `InternalHashTable::HasCollisions` clears, is built over its earlier slots. -/
theorem builtOn_of_build (t : InternalHashTable) (es : List Int)
    (hp : t.hash_function_.Positive) (hsize : t.info_.length = es.length * es.length)
    (hc : t.HasCollisions es = Except.ok false) :
    ∃ t2, t.BuildHashTable es = Except.ok t2 ∧ t2.hash_function_ = t.hash_function_ ∧
      t2.BuiltOn t.info_ es := by
  obtain ⟨t2, hb, hh2, hlen2, hslots⟩ := buildHashTable_spec t es hp hsize
  have hinj := injective_of_no_collision t es hp hc
  refine ⟨t2, hb, hh2, by rw [hh2]; exact hp, hlen2, by rw [hh2]; exact hinj, ?_⟩
  intro i hi
  rw [hslots i hi, hh2, getLast?_eq_head?_of_length_le_one _ (hinj i)]

/-- The table that `InternalHashTable::Initialize` returns, from any earlier table, is built
over the resized earlier slots. -/
theorem init_inner_builtOn (self : InternalHashTable) (es : List Int) (g : Generator)
    (fuel : Nat) (t : InternalHashTable) (g2 : Generator)
    (h : self.Initialize es g fuel = Except.ok (t, g2)) :
    t.BuiltOn (vecResize self.info_ (es.length * es.length)) es := by
  simp only [InternalHashTable.Initialize, bind, Except.bind] at h
  split at h
  · simp at h
  · rename_i r hr
    obtain ⟨t1, g1⟩ := r
    obtain ⟨hinfo, hmod, hcol⟩ := resample_spec es fuel _ g t1 g1 hr
    have hp : t1.hash_function_.Positive := by
      have := kPrime_positive t1.hash_function_.arg_a t1.hash_function_.arg_b
      rw [← hmod] at this
      exact this
    obtain ⟨t2, hb, -, hbuilt⟩ :=
      builtOn_of_build t1 es hp (by rw [hinfo]; exact length_vecResize _ _) hcol
    simp only [hb, pure, Except.pure] at h
    injection h with h
    injection h with h1 h2
    subst h1
    rw [hinfo] at hbuilt
    exact hbuilt

theorem builtOn_keysAt (t : InternalHashTable) (old : List (Option Int)) (es : List Int)
    (hb : t.BuiltOn old es) (x : Int) (hx : x ∈ es) :
    t.hash_function_.keysAt es (t.hash_function_.slot (es.length * es.length) x) = [x] :=
  keysAt_eq_singleton _ es x hx (hb.injective _)

theorem builtOn_stored (t : InternalHashTable) (old : List (Option Int)) (es : List Int)
    (hb : t.BuiltOn old es) (x : Int) (hx : x ∈ es) :
    t.info_.get? (t.hash_function_.slot (es.length * es.length) x) = some (some x) := by
  have hpos : 0 < es.length := List.length_pos_of_mem hx
  have hlt := slot_lt t.hash_function_ x (Nat.mul_pos hpos hpos)
  rw [getD_eq_get? _ _ none (by rw [hb.size]; exact hlt), hb.stored _ hlt,
    builtOn_keysAt t old es hb x hx]
  rfl

theorem builtOn_injective (t : InternalHashTable) (old : List (Option Int)) (es : List Int)
    (hb : t.BuiltOn old es) (x y : Int) (hx : x ∈ es) (hy : y ∈ es)
    (hxy : t.hash_function_.slot (es.length * es.length) x
      = t.hash_function_.slot (es.length * es.length) y) : x = y := by
  have h1 := builtOn_keysAt t old es hb x hx
  have h2 : y ∈ t.hash_function_.keysAt es (t.hash_function_.slot (es.length * es.length) x) :=
    (mem_keysAt _ es _ y).mpr ⟨hy, hxy.symm⟩
  rw [h1] at h2
  exact (List.mem_singleton.mp h2).symm

theorem keysAt_eq_nil (h : HashFunction) (es : List Int) (i : Nat)
    (hno : ∀ x, x ∈ es → h.slot (es.length * es.length) x ≠ i) : h.keysAt es i = [] := by
  apply List.eq_nil_iff_forall_not_mem.mpr
  intro x hx
  have := (mem_keysAt _ es i x).mp hx
  exact hno x this.1 this.2

/-- A slot that no key of the bucket is sent to keeps what the earlier slots held. -/
theorem builtOn_frame (t : InternalHashTable) (old : List (Option Int)) (es : List Int)
    (hb : t.BuiltOn old es) (hold : old.length = es.length * es.length)
    (i : Nat) (hi : i < es.length * es.length)
    (hno : ∀ x, x ∈ es → t.hash_function_.slot (es.length * es.length) x ≠ i) :
    t.info_.get? i = old.get? i := by
  rw [getD_eq_get? _ _ none (by rw [hb.size]; exact hi),
    getD_eq_get? old _ none (by rw [hold]; exact hi), hb.stored _ hi,
    keysAt_eq_nil _ es i hno]
  rfl

theorem getD_all_none (l : List (Option Int)) (hl : ∀ s, s ∈ l → s = none) (i : Nat) :
    l.getD i none = none := by
  rw [List.getD_eq_getElem?_getD]
  cases h : l[i]? with
  | none => rfl
  | some s => exact hl s (List.getElem?_mem h)

theorem vecResize_all_none (l : List (Option Int)) (hl : ∀ s, s ∈ l → s = none) (size : Nat) :
    ∀ s, s ∈ vecResize l size → s = none := by
  intro s hs
  simp only [vecResize, List.mem_append] at hs
  rcases hs with hs | hs
  · exact hl s (List.mem_of_mem_take hs)
  · exact (List.mem_replicate.mp hs).2

/-- A table built over empty slots is a perfect table of its bucket. -/
theorem builtOn_perfect (t : InternalHashTable) (old : List (Option Int)) (es : List Int)
    (hb : t.BuiltOn old es) (hold : ∀ s, s ∈ old → s = none) : t.PerfectFor es := by
  refine ⟨hb.positive, hb.size, hb.injective, ?_⟩
  intro i hi
  rw [hb.stored i hi, getD_all_none old hold i]
  cases (t.hash_function_.keysAt es i).head? <;> rfl

/-- The answer of `InternalHashTable::Contains` on a table with slots: it reads one slot. -/
theorem contains_eq_slot (t : InternalHashTable) (hp : t.hash_function_.Positive)
    (hm : 0 < t.info_.length) (v : Int) :
    t.Contains v = Except.ok
      (match t.info_.getD (t.hash_function_.slot t.info_.length v) none with
        | some stored => decide (stored = v)
        | none => false) := by
  have hlt := slot_lt t.hash_function_ v hm
  have hget := vecGet_nat t.info_ _ _ (getD_eq_get? t.info_ _ none hlt)
  have hne : t.info_.isEmpty = false := by
    cases hl : t.info_ with
    | nil => rw [hl] at hm; simp at hm
    | cons a l => rfl
  simp only [InternalHashTable.Contains, hne, Bool.false_eq_true, if_false,
    apply_eq_value _ v hp, remSize_value _ v hp hm, hget, bind, Except.bind]
  cases t.info_.getD (t.hash_function_.slot t.info_.length v) none <;> rfl

/-- A key of the bucket is found in a table built over any earlier slots. -/
theorem builtOn_contains_mem (t : InternalHashTable) (old : List (Option Int))
    (es : List Int) (hb : t.BuiltOn old es) (v : Int) (hv : v ∈ es) :
    t.Contains v = Except.ok true := by
  have hpos : 0 < es.length := List.length_pos_of_mem hv
  have hm : 0 < t.info_.length := by rw [hb.size]; exact Nat.mul_pos hpos hpos
  rw [contains_eq_slot t hb.positive hm v, hb.size,
    hb.stored _ (slot_lt _ v (Nat.mul_pos hpos hpos)), builtOn_keysAt t old es hb v hv]
  simp

/-- A value outside the bucket is found in a table built over earlier slots exactly when its
own slot held it before and no key of the bucket is sent to that slot. -/
theorem builtOn_contains_not_mem (t : InternalHashTable) (old : List (Option Int))
    (es : List Int) (hb : t.BuiltOn old es) (hold : old.length = es.length * es.length)
    (v : Int) (hv : v ∉ es) :
    t.Contains v = Except.ok true ↔
      (old.get? (t.hash_function_.slot (es.length * es.length) v) = some (some v) ∧
        ∀ w, w ∈ es → t.hash_function_.slot (es.length * es.length) w
          ≠ t.hash_function_.slot (es.length * es.length) v) := by
  rcases Nat.eq_zero_or_pos es.length with h0 | hpos
  · have hnil : t.info_ = [] := List.length_eq_zero.mp (by rw [hb.size, h0])
    have holdnil : old = [] := List.length_eq_zero.mp (by rw [hold, h0])
    have hcon : t.Contains v = Except.ok false := by
      simp [InternalHashTable.Contains, hnil]
      rfl
    rw [hcon, holdnil]
    simp
  · have hmm : 0 < es.length * es.length := Nat.mul_pos hpos hpos
    have hm : 0 < t.info_.length := by rw [hb.size]; exact hmm
    have hlt := slot_lt t.hash_function_ v hmm
    rw [contains_eq_slot t hb.positive hm v, hb.size, hb.stored _ hlt,
      getD_eq_get? old _ none (by rw [hold]; exact hlt)]
    cases hh : (t.hash_function_.keysAt es
        (t.hash_function_.slot (es.length * es.length) v)).head? with
    | some w =>
      have hw := (mem_keysAt _ es _ w).mp (List.mem_of_mem_head? hh)
      have hne : w ≠ v := by
        intro heq
        rw [heq] at hw
        exact hv hw.1
      constructor
      · intro hcon
        simp [hne] at hcon
      · rintro ⟨-, hno⟩
        exact absurd hw.2 (hno w hw.1)
    | none =>
      have hnil : t.hash_function_.keysAt es
          (t.hash_function_.slot (es.length * es.length) v) = [] := by
        cases hl : t.hash_function_.keysAt es
            (t.hash_function_.slot (es.length * es.length) v) with
        | nil => rfl
        | cons a l => rw [hl] at hh; simp at hh
      have hno : ∀ w, w ∈ es → t.hash_function_.slot (es.length * es.length) w
          ≠ t.hash_function_.slot (es.length * es.length) v := by
        intro w hw heq
        have : w ∈ t.hash_function_.keysAt es
            (t.hash_function_.slot (es.length * es.length) v) :=
          (mem_keysAt _ es _ w).mpr ⟨hw, heq⟩
        rw [hnil] at this
        simp at this
      cases hs : old.getD (t.hash_function_.slot (es.length * es.length) v) none with
      | none => simp [Option.or]
      | some s =>
        by_cases hsv : s = v
        · subst hsv
          simp [Option.or]
          exact hno
        · have : ¬ (some (some s) : Option (Option Int)) = some (some v) := by
            intro h
            injection h with h
            injection h with h
            exact hsv h
          simp [Option.or, hsv, this]

/-- C5 (counterexample). The inner table of `usedSet`, which holds `42` in its one slot, is
given the bucket `[2, 5]`: `InternalHashTable::Initialize` terminates with the slots
`[42, 5, 2, empty]`, so three slots are occupied for `k = 2` keys, and slot `0` is occupied
though the keys are sent to the slots `2` and `1`. -/
theorem used_table_keeps_stale_slot :
    InternalHashTable.Initialize ⟨⟨1073741824, 0, 2147483647⟩, [some 42]⟩ [2, 5]
        ⟨demoSeed.draws, 6⟩ 2
      = Except.ok (⟨⟨1, 0, kPrime⟩, [some 42, some 5, some 2, none]⟩, ⟨demoSeed.draws, 10⟩) ∧
    ([2, 5] : List Int).length = 2 ∧
    ([some 42, some 5, some 2, none] : List (Option Int)).countP Option.isSome = 3 ∧
    HashFunction.slot ⟨1, 0, kPrime⟩ (2 * 2) 2 = 2 ∧
    HashFunction.slot ⟨1, 0, kPrime⟩ (2 * 2) 5 = 1 ∧
    ([some 42, some 5, some 2, none] : List (Option Int)).get? 0 = some (some 42) :=
  ⟨rfl, rfl, rfl, rfl, rfl, rfl⟩

/-- C5 (amended). After `InternalHashTable::Initialize` terminates on a bucket of `k` keys,
from any earlier table, the table has exactly `k * k` slots, every key `x` of the bucket is
stored at slot `hash(x) % (k * k)`, two keys of the bucket with the same slot are equal, and
every slot that no key of the bucket is sent to holds what the earlier table, resized to
`k * k` slots, held there; when the earlier table had no occupied slot, as the
default-constructed table that `FixedSet::BuildHashTables` passes, exactly `k` slots are
occupied and every slot that no key is sent to is empty. -/
theorem inner_table_zero_collision (self : InternalHashTable) (es : List Int)
    (g : Generator) (fuel : Nat) (t : InternalHashTable) (g2 : Generator)
    (h : self.Initialize es g fuel = Except.ok (t, g2)) :
    t.info_.length = es.length * es.length ∧
    (∀ x, x ∈ es →
      (do
        let hashed ← t.hash_function_.apply x
        remSize hashed t.info_.length)
        = Except.ok ((t.hash_function_.slot (es.length * es.length) x : Nat) : Int) ∧
      t.info_.get? (t.hash_function_.slot (es.length * es.length) x) = some (some x)) ∧
    (∀ x y, x ∈ es → y ∈ es →
      t.hash_function_.slot (es.length * es.length) x
        = t.hash_function_.slot (es.length * es.length) y → x = y) ∧
    (∀ i, i < es.length * es.length →
      (∀ x, x ∈ es → t.hash_function_.slot (es.length * es.length) x ≠ i) →
      t.info_.get? i = (vecResize self.info_ (es.length * es.length)).get? i) ∧
    ((∀ s, s ∈ self.info_ → s = none) →
      t.info_.countP Option.isSome = es.length ∧
      ∀ i, i < es.length * es.length →
        (∀ x, x ∈ es → t.hash_function_.slot (es.length * es.length) x ≠ i) →
        t.info_.get? i = some none) := by
  have hb := init_inner_builtOn self es g fuel t g2 h
  refine ⟨hb.size, ?_, ?_, ?_, ?_⟩
  · intro x hx
    refine ⟨?_, builtOn_stored t _ es hb x hx⟩
    have hpos : 0 < es.length := List.length_pos_of_mem hx
    simp only [apply_eq_value _ x hb.positive, hb.size, bind, Except.bind]
    exact remSize_value _ x hb.positive (Nat.mul_pos hpos hpos)
  · intro x y hx hy hxy
    exact builtOn_injective t _ es hb x y hx hy hxy
  · intro i hi hno
    exact builtOn_frame t _ es hb (length_vecResize _ _) i hi hno
  · intro hempty
    have hpf := builtOn_perfect t _ es hb (vecResize_all_none _ hempty _)
    exact ⟨perfect_occupied t es hpf, perfect_empty t es hpf⟩

/-- Witness of C5 (amended): the bucket `[2, 5]` on a default-constructed table; the first
candidate `(0, 3)` is rejected, and two of the four slots are occupied. -/
theorem inner_table_zero_collision_witness :
    InternalHashTable.Initialize {} [2, 5] ⟨demoSeed.draws, 6⟩ 2
      = Except.ok (⟨⟨1, 0, kPrime⟩, [none, some 5, some 2, none]⟩, ⟨demoSeed.draws, 10⟩) ∧
    ([none, some 5, some 2, none] : List (Option Int)).countP Option.isSome = 2 :=
  ⟨rfl, ((inner_table_zero_collision {} [2, 5] ⟨demoSeed.draws, 6⟩ 2
    ⟨⟨1, 0, kPrime⟩, [none, some 5, some 2, none]⟩ ⟨demoSeed.draws, 10⟩ rfl).2.2.2.2
      (fun s hs => absurd hs (List.not_mem_nil s))).1⟩

/-- C11 (counterexample). On the four slots `[44, empty, empty, empty]`, as a used table
resized for the bucket `[2, 5]`, with the function `(1, 0, kPrime)`:
`InternalHashTable::HasCollisions` is false, `BuildHashTable` leaves `[44, 5, 2, empty]`, and
`InternalHashTable::Contains(44)` returns true though `44` is not in the bucket. -/
theorem stale_slot_gives_false_positive :
    InternalHashTable.HasCollisions ⟨⟨1, 0, kPrime⟩, [some 44, none, none, none]⟩ [2, 5]
      = Except.ok false ∧
    InternalHashTable.BuildHashTable ⟨⟨1, 0, kPrime⟩, [some 44, none, none, none]⟩ [2, 5]
      = Except.ok ⟨⟨1, 0, kPrime⟩, [some 44, some 5, some 2, none]⟩ ∧
    InternalHashTable.Contains ⟨⟨1, 0, kPrime⟩, [some 44, some 5, some 2, none]⟩ 44
      = Except.ok true ∧
    (44 : Int) ∉ ([2, 5] : List Int) :=
  ⟨rfl, rfl, rfl, by decide⟩

/-- C11 (amended). For every bucket `B` of `k` keys and every hash function (of positive
modulus) for which `InternalHashTable::HasCollisions(B)` is false, `BuildHashTable(B)` on a
table of `k * k` slots succeeds, and afterwards `InternalHashTable::Contains(v)` returns,
with true for every `v` in `B`; for `v` outside `B` it returns true exactly when the slot of
`v` held `v` before and no key of `B` is sent to that slot.  So when all slots were empty
before, `Contains(v)` is true exactly when `v` is in `B`, and a value outside `B` whose slot
is occupied is rejected; on a table without slots, as built from the empty bucket,
`Contains` returns false. -/
theorem inner_contains_iff_mem (t : InternalHashTable) (B : List Int)
    (hp : t.hash_function_.Positive) (hsize : t.info_.length = B.length * B.length)
    (hc : t.HasCollisions B = Except.ok false) :
    (∃ t2, t.BuildHashTable B = Except.ok t2 ∧
      (∀ v, ∃ b, t2.Contains v = Except.ok b) ∧
      (∀ v, v ∈ B → t2.Contains v = Except.ok true) ∧
      (∀ v, v ∉ B → (t2.Contains v = Except.ok true ↔
        (t.info_.get? (t.hash_function_.slot (B.length * B.length) v) = some (some v) ∧
          ∀ w, w ∈ B → t.hash_function_.slot (B.length * B.length) w
            ≠ t.hash_function_.slot (B.length * B.length) v))) ∧
      ((∀ s, s ∈ t.info_ → s = none) →
        (∀ v, t2.Contains v = Except.ok (decide (v ∈ B))) ∧
        (∀ v w, v ∉ B → t2.info_.get? (t2.hash_function_.slot (B.length * B.length) v)
          = some (some w) → w ≠ v ∧ t2.Contains v = Except.ok false))) ∧
    (∀ (h : HashFunction) (v : Int),
      InternalHashTable.BuildHashTable ⟨h, []⟩ [] = Except.ok ⟨h, []⟩ ∧
      InternalHashTable.Contains ⟨h, []⟩ v = Except.ok false) := by
  obtain ⟨t2, hb, hh, hbuilt⟩ := builtOn_of_build t B hp hsize hc
  refine ⟨⟨t2, hb, fun v => inner_contains_returns t2 hbuilt.positive v,
    fun v hv => builtOn_contains_mem t2 _ B hbuilt v hv, ?_, ?_⟩, fun h v => ⟨rfl, rfl⟩⟩
  · intro v hv
    have := builtOn_contains_not_mem t2 _ B hbuilt hsize v hv
    rw [hh] at this
    exact this
  · intro hempty
    have hpf := builtOn_perfect t2 _ B hbuilt hempty
    refine ⟨fun v => perfect_contains t2 B hpf v, ?_⟩
    intro v w hv hw
    have hcon := perfect_contains t2 B hpf v
    simp only [hv, decide_False] at hcon
    refine ⟨?_, hcon⟩
    intro hwv
    subst hwv
    have hlen : t2.hash_function_.slot (B.length * B.length) w < B.length * B.length := by
      obtain ⟨hlt, -⟩ := List.get?_eq_some.mp hw
      rw [hpf.size] at hlt
      exact hlt
    rw [getD_eq_get? _ _ none (by rw [hpf.size]; exact hlen), hpf.stored _ hlen] at hw
    injection hw with hw
    have hmem := List.mem_of_mem_head? hw
    exact hv ((mem_keysAt _ B _ w).mp hmem).1

/-- Witness of C11 (amended): the bucket `[2, 5]` under `(1, 0, kPrime)` on four empty
slots; the value `6` is outside the bucket and lands on slot `2`, which holds `2`. -/
theorem inner_contains_iff_mem_witness :
    InternalHashTable.HasCollisions ⟨⟨1, 0, kPrime⟩, [none, none, none, none]⟩ [2, 5]
      = Except.ok false ∧
    InternalHashTable.BuildHashTable ⟨⟨1, 0, kPrime⟩, [none, none, none, none]⟩ [2, 5]
      = Except.ok ⟨⟨1, 0, kPrime⟩, [none, some 5, some 2, none]⟩ ∧
    InternalHashTable.Contains ⟨⟨1, 0, kPrime⟩, [none, some 5, some 2, none]⟩ 6
      = Except.ok false ∧
    ∃ t2, InternalHashTable.BuildHashTable ⟨⟨1, 0, kPrime⟩, [none, none, none, none]⟩ [2, 5]
        = Except.ok t2 ∧
      (∀ v, v ∈ ([2, 5] : List Int) → t2.Contains v = Except.ok true) ∧
      (∀ v, t2.Contains v = Except.ok (decide (v ∈ ([2, 5] : List Int)))) := by
  refine ⟨rfl, rfl, rfl, ?_⟩
  obtain ⟨t2, hb, -, hmem, -, hempty⟩ :=
    (inner_contains_iff_mem ⟨⟨1, 0, kPrime⟩, [none, none, none, none]⟩ [2, 5]
      (kPrime_positive 1 0) rfl rfl).1
  exact ⟨t2, hb, hmem, (hempty (by decide)).1⟩
end FKS
